import Mathlib

/-!
Verification development for the `regexify` repository (DFA → regular
expression converter with an algebraic regex simplifier).

The Python sources are shallowly embedded:

* `Regex` mirrors `regex.Regex` (`src/regex.py`): a node is either a
  `STRING` leaf carrying the literal (Python stores the literal as
  `values[0]`, a `str`) or an inner `node` with a tag from `NodeType`
  and an ordered list of children (`values`).
* `simplify_step` / `simplify_regex` mirror the rewriter of
  `src/regex.py`.  Python's unbounded fixed-point loop and its `while`
  scans are embedded with an explicit fuel argument; the fuel passed at
  every concrete call site strictly exceeds the number of iterations the
  Python loop can perform there, so on those inputs the embedding
  computes exactly what the source computes, and the language
  preservation theorems are proved for every fuel value.
* Python's structural `__eq__` is Lean's propositional equality on
  `Regex` (decidable, defined below).  Python's `__hash__` falls back to
  `hash(repr(self))` for non-`STRING` nodes; `repr` is not overridden,
  so it is the default object-identity representation.  Consequently
  `dict.fromkeys` (the duplicate-removal rule of alternations) merges
  two list entries only when both are `STRING` nodes with equal literals
  (equal hash, then structural `==`); two structurally equal compound
  nodes are distinct objects with distinct hashes and are both kept.
  `pydedup` below models exactly that runtime behaviour.
* `PyDFA` / `is_accepted` / `rtab` / `t0` / `to_regex_final` mirror
  `src/dfa.py` (`DFA.__init__` validation is captured by `ValidDFA`,
  `DFA.is_accepted`, and the `a(k,i,j)` dynamic programming of
  `DFA.to_regex`).  The integer `0` used by the source as the empty-set
  sentinel inside `r_table` is modelled as `none : Option Regex`; the
  Python value actually stored is recovered by `cellToPyVal`.
* `ints_to_tree_label` / `tree_label_to_ints` mirror `src/app.py`.
-/

/-- Tags of inner regex nodes, mirroring `NodeType` of `src/regex.py`
(the `STRING` case is a separate constructor of `Regex` because Python
stores a raw `str` in `values[0]` there, which the source distinguishes
with `isinstance(..., str)` checks). -/
inductive RTag where
  | ALTERNATION
  | CONCATENATION
  | KLEENE_STAR
  | KLEENE_PLUS
  | MAYBE
deriving DecidableEq

/-- Regex syntax trees, mirroring `regex.Regex`. -/
inductive Regex where
  | STRING (s : String)
  | node (t : RTag) (values : List Regex)

mutual
/-- Structural equality test mirroring `Regex.__eq__`: `STRING` leaves
compare their literal, inner nodes compare tag, arity and children
pairwise. -/
def beqRegex : Regex → Regex → Bool
  | .STRING s, .STRING t => s = t
  | .node t1 vs1, .node t2 vs2 => decide (t1 = t2) && beqRegexList vs1 vs2
  | _, _ => false

/-- Pairwise structural equality of child lists. -/
def beqRegexList : List Regex → List Regex → Bool
  | [], [] => true
  | x :: xs, y :: ys => beqRegex x y && beqRegexList xs ys
  | _, _ => false
end

mutual
theorem beqRegex_iff : ∀ (a b : Regex), beqRegex a b = true ↔ a = b
  | .STRING _, .STRING _ => by simp [beqRegex]
  | .STRING _, .node _ _ => by simp [beqRegex]
  | .node _ _, .STRING _ => by simp [beqRegex]
  | .node t1 vs1, .node t2 vs2 => by
      simp [beqRegex, beqRegexList_iff vs1 vs2]

theorem beqRegexList_iff : ∀ (xs ys : List Regex),
    beqRegexList xs ys = true ↔ xs = ys
  | [], [] => by simp [beqRegexList]
  | [], _ :: _ => by simp [beqRegexList]
  | _ :: _, [] => by simp [beqRegexList]
  | x :: xs, y :: ys => by
      simp [beqRegexList, beqRegex_iff x y, beqRegexList_iff xs ys]
end

instance : DecidableEq Regex := fun a b =>
  decidable_of_iff _ (beqRegex_iff a b)

/-- Default value used to model Python's (never failing, on the traces
this program produces) `values[0]` indexing on lists known to be
non-empty. -/
def dflt : Regex := .STRING "ε"

/-- Test for a leaf holding the epsilon literal, modelling
`x.type == NodeType.STRING and x.values[0] == 'ε'`. -/
def isEpsilonString : Regex → Bool
  | .STRING s => s = "ε"
  | _ => false

/-- Test modelling `x.type in [NodeType.KLEENE_PLUS, NodeType.KLEENE_STAR,
NodeType.MAYBE]`. -/
def isWrapNode : Regex → Bool
  | .node .KLEENE_STAR _ => true
  | .node .KLEENE_PLUS _ => true
  | .node .MAYBE _ => true
  | _ => false

/-- Test modelling `x.type == NodeType.MAYBE`. -/
def isMaybeNode : Regex → Bool
  | .node .MAYBE _ => true
  | _ => false

/-- Test modelling `x.type == NodeType.ALTERNATION`. -/
def isAltNode : Regex → Bool
  | .node .ALTERNATION _ => true
  | _ => false

/-- Child list of an alternation node (`x.values`). -/
def altChildren : Regex → List Regex
  | .node .ALTERNATION l => l
  | _ => []

/-- Model of `x.values[0]` for an inner node. -/
def firstChildD : Regex → Regex
  | .node _ (c :: _) => c
  | _ => dflt

/-- Model of the in-place retagging `x.type = x.values[0].type;
x.values = x.values[0].values` (the node is replaced by its first
child; for a `STRING` first child the mutated node is again that same
`STRING` leaf). -/
def unwrapFirst : Regex → Regex
  | .node _ (c :: _) => c
  | r => r

/-- First index where `p` holds, modelling Python's
`list(map(p, l)).index(True)` wrapped in `try/except` (`some i` for the
first hit, `none` for `-1`). -/
def pyIndex (p : Regex → Bool) : List Regex → Option Nat
  | [] => none
  | x :: xs => if p x then some 0 else (pyIndex p xs).map (· + 1)

/-- Key equality used by `dict.fromkeys` on `Regex` objects: two list
entries collide only when their hashes agree and `__eq__` holds.
`__hash__` hashes the literal for `STRING` nodes and the default
(object identity) `repr` otherwise, so only `STRING` nodes with equal
literals collide (the child lists of this program never contain the
same compound object twice). -/
def keyEq : Regex → Regex → Bool
  | .STRING s, .STRING t => s = t
  | _, _ => false

/-- Model of `list(dict.fromkeys(values))` with the key behaviour of
`keyEq`: keep an entry iff no earlier entry has the same key. -/
def pydedupGo : List Regex → List Regex → List Regex
  | _, [] => []
  | seen, x :: xs =>
    if seen.any (keyEq x) then pydedupGo seen xs
    else x :: pydedupGo (x :: seen) xs

/-- Duplicate removal of rule `x|x = x` (`src/regex.py` line 84). -/
def pydedup (vs : List Regex) : List Regex := pydedupGo [] vs

/-- Model of Python `list.remove(e)`: drop the first occurrence
structurally equal to `e` (the source only calls it when an occurrence
exists). -/
def pyErase : List Regex → Regex → List Regex
  | [], _ => []
  | x :: xs, e => if x = e then xs else x :: pyErase xs e

/-- Contents of all wrapping children, modelling
`[x.values[0] for x in values if x.type in [KLEENE_PLUS, KLEENE_STAR, MAYBE]]`. -/
def wrapContents : List Regex → List Regex
  | [] => []
  | x :: xs =>
    if isWrapNode x then firstChildD x :: wrapContents xs else wrapContents xs

/-- Removal loop of rule `x|x* = x*` etc. (`src/regex.py` lines 91-93):
for each element of the snapshot `non_wrapping`, if it occurs among the
wrapped contents, remove its first occurrence from the current list. -/
def removeAbsorbed (wrapping : List Regex) : List Regex → List Regex → List Regex
  | [], acc => acc
  | e :: es, acc =>
    removeAbsorbed wrapping es (if e ∈ wrapping then pyErase acc e else acc)

/-- Rule `ε|x = x?` of `simplify_step` (`src/regex.py` lines 94-104):
when some child is the epsilon leaf and other children remain, pop it,
retag the node to `MAYBE` and wrap the remaining children in a fresh
alternation; the state is the node's `(type, values)` pair. -/
def altEpsStage (vs2 : List Regex) : RTag × List Regex :=
  match pyIndex isEpsilonString vs2 with
  | some idx =>
    if 1 < vs2.length then
      (.MAYBE, [.node .ALTERNATION (vs2.eraseIdx idx)])
    else (.ALTERNATION, vs2)
  | none => (.ALTERNATION, vs2)

/-- Rule `x?|y = (x|y)?` of `simplify_step` (`src/regex.py` lines
105-118): when some child is a `MAYBE` and other children remain,
replace that child by its content in place, retag the node to `MAYBE`
and wrap the child list in a fresh alternation. -/
def altMaybeStage (p : RTag × List Regex) : RTag × List Regex :=
  match pyIndex isMaybeNode p.2 with
  | some mi =>
    if 1 < p.2.length then
      (.MAYBE, [.node .ALTERNATION (p.2.set mi (unwrapFirst (p.2.getD mi dflt)))])
    else p
  | none => p

/-- Single-child merge of the alternation case (`src/regex.py` lines
119-126): a single `STRING` child replaces the node by that leaf, and
a still-`ALTERNATION`-tagged node with one child becomes that child. -/
def altMerge (p : RTag × List Regex) : Regex :=
  match p.2, p.1 with
  | [.STRING s], _ => .STRING s
  | [x], .ALTERNATION => x
  | l, t => .node t l

/-- Alternation rules of `simplify_step` (`src/regex.py` lines 83-126),
applied to the already recursively simplified child list (the
single-child early return of line 82 happens before this function is
called). -/
def altRules (vs : List Regex) : Regex :=
  let vs1 := pydedup vs
  let wrapping := wrapContents vs1
  let non_wrapping := vs1.filter (fun x => !isWrapNode x)
  let vs2 := removeAbsorbed wrapping non_wrapping vs1
  altMerge (altMaybeStage (altEpsStage vs2))

/-- One iteration of the right-to-left scan of rule `xx* = x+ = x*x`
(`src/regex.py` lines 134-150); every branch of the Python loop body
decrements `i`, so the loop is `scanA`, iterating this step. -/
def stepA (n : Nat) (vs : List Regex) : List Regex :=
  let left := vs.getD n dflt
  let right := vs.getD (n + 1) dflt
  match right with
  | .node .KLEENE_STAR rs =>
    if left = rs.headD dflt then
      vs.take n ++ .node .KLEENE_PLUS rs :: vs.drop (n + 2)
    else
      match left with
      | .node .KLEENE_STAR ls =>
        if right = ls.headD dflt then
          vs.take n ++ .node .KLEENE_PLUS ls :: vs.drop (n + 2)
        else vs
      | _ => vs
  | _ =>
    match left with
    | .node .KLEENE_STAR ls =>
      if right = ls.headD dflt then
        vs.take n ++ .node .KLEENE_PLUS ls :: vs.drop (n + 2)
      else vs
    | _ => vs

/-- Right-to-left scan of rule `xx* = x+ = x*x`; the argument is the
loop variable `i` (initially `len(values) - 1`). -/
def scanA : Nat → List Regex → List Regex
  | 0, vs => vs
  | n + 1, vs => scanA n (stepA n vs)

/-- Left-to-right scan of rule `x?x* = x* = x*x?` (`src/regex.py` lines
152-167), fuelled; the fuel at the call site exceeds the iteration
count of the Python loop. -/
def scanB : Nat → Nat → List Regex → List Regex
  | 0, _, vs => vs
  | b + 1, i, vs =>
    if i < vs.length - 1 then
      match vs.getD i dflt, vs.getD (i + 1) dflt with
      | .node .MAYBE ls, .node .KLEENE_STAR rs =>
        if ls.headD dflt = rs.headD dflt then scanB b i (vs.eraseIdx i)
        else scanB b (i + 1) vs
      | .node .KLEENE_STAR ls, .node .MAYBE rs =>
        if ls.headD dflt = rs.headD dflt then scanB b i (vs.eraseIdx (i + 1))
        else scanB b (i + 1) vs
      | _, _ => scanB b (i + 1) vs
    else vs

/-- Left-to-right scan collapsing `εε` and `x*x*` (`src/regex.py` lines
170-181), fuelled. -/
def scanC : Nat → Nat → List Regex → List Regex
  | 0, _, vs => vs
  | b + 1, i, vs =>
    if i < vs.length - 1 then
      match vs.getD i dflt, vs.getD (i + 1) dflt with
      | .STRING s1, .STRING s2 =>
        if s1 = "ε" ∧ s2 = "ε" then scanC b i (vs.eraseIdx (i + 1))
        else scanC b (i + 1) vs
      | .node .KLEENE_STAR ls, .node .KLEENE_STAR rs =>
        if ls.headD dflt = rs.headD dflt then scanC b i (vs.eraseIdx (i + 1))
        else scanC b (i + 1) vs
      | _, _ => scanC b (i + 1) vs
    else vs

/-- Left-to-right scan dropping `ε` elements (`src/regex.py` lines
183-198), fuelled. -/
def scanD : Nat → Nat → List Regex → List Regex
  | 0, _, vs => vs
  | b + 1, i, vs =>
    if i < vs.length - 1 then
      if isEpsilonString (vs.getD i dflt) then scanD b i (vs.eraseIdx i)
      else if isEpsilonString (vs.getD (i + 1) dflt) then
        scanD b i (vs.eraseIdx (i + 1))
      else scanD b (i + 1) vs
    else vs

/-- Left-to-right distribution scan `x(y|z) = xy|xz`, `(x|y)z = xz|yz`
(`src/regex.py` lines 200-223), fuelled. -/
def scanE : Nat → Nat → List Regex → List Regex
  | 0, _, vs => vs
  | b + 1, i, vs =>
    if i < vs.length - 1 then
      if isAltNode (vs.getD (i + 1) dflt) && !isWrapNode (vs.getD i dflt) then
        scanE b i (vs.take i ++
          .node .ALTERNATION ((altChildren (vs.getD (i + 1) dflt)).map
            (fun e => .node .CONCATENATION [vs.getD i dflt, e])) :: vs.drop (i + 2))
      else if isAltNode (vs.getD i dflt) && !isWrapNode (vs.getD (i + 1) dflt) then
        scanE b i (vs.take i ++
          .node .ALTERNATION ((altChildren (vs.getD i dflt)).map
            (fun e => .node .CONCATENATION [e, vs.getD (i + 1) dflt])) :: vs.drop (i + 2))
      else scanE b (i + 1) vs
    else vs

/-- Single-child merge of the concatenation case (`src/regex.py` lines
224-230): a single `STRING` child replaces the node by that leaf, any
other single child replaces the node by the child. -/
def concatMerge (l : List Regex) : Regex :=
  match l with
  | [.STRING s] => .STRING s
  | [x] => x
  | l => .node .CONCATENATION l

/-- Concatenation rules of `simplify_step` (`src/regex.py` lines
132-230) on the already simplified child list: the five `while` loops
in source order followed by the single-child merge (the single-child
early return of line 131 happens before this is called). -/
def concatRules (vs : List Regex) : Regex :=
  let v1 := scanA (vs.length - 1) vs
  let v2 := scanB (v1.length + 1) 0 v1
  let v3 := scanC (v2.length + 1) 0 v2
  let v4 := scanD (v3.length + 1) 0 v3
  let v5 := scanE (v4.length + 1) 0 v4
  concatMerge v5

/-- Kleene-star rules of `simplify_step` (`src/regex.py` lines 232-249);
once the `ε* = ε` rule retags the node to `STRING`, the remaining rules
are skipped by their `isinstance(..., str)` guards. -/
def starRules (vs : List Regex) : Regex :=
  match vs with
  | [.STRING s] => if s = "ε" then .STRING "ε" else .node .KLEENE_STAR vs
  | [.node .ALTERNATION avs] =>
    let avs2 :=
      match pyIndex isEpsilonString avs with
      | some idx => if 1 < avs.length then avs.eraseIdx idx else avs
      | none => avs
    .node .KLEENE_STAR [.node .ALTERNATION avs2]
  | [.node .KLEENE_STAR ws] => .node .KLEENE_STAR ws
  | [.node .KLEENE_PLUS ws] => .node .KLEENE_STAR ws
  | [.node .MAYBE ws] => .node .KLEENE_STAR ws
  | _ => .node .KLEENE_STAR vs

/-- Kleene-plus rules of `simplify_step` (`src/regex.py` lines 251-263):
`ε+ = ε`, then `(x*)+ = (x?)+ = x*` (which retags to `KLEENE_STAR`),
then `(x+)+ = x+` on the possibly already rewritten values. -/
def plusRules (vs : List Regex) : Regex :=
  match vs with
  | [.STRING s] => if s = "ε" then .STRING "ε" else .node .KLEENE_PLUS vs
  | [.node .KLEENE_STAR ws] =>
    match ws with
    | [.node .KLEENE_PLUS w2] => .node .KLEENE_STAR w2
    | _ => .node .KLEENE_STAR ws
  | [.node .MAYBE ws] =>
    match ws with
    | [.node .KLEENE_PLUS w2] => .node .KLEENE_STAR w2
    | _ => .node .KLEENE_STAR ws
  | [.node .KLEENE_PLUS ws] => .node .KLEENE_PLUS ws
  | _ => .node .KLEENE_PLUS vs

/-- Maybe rules of `simplify_step` (`src/regex.py` lines 265-277):
`ε? = ε`, then `(x*)? = x*`, then `(x?)? = x?` on the possibly already
rewritten values. -/
def maybeRules (vs : List Regex) : Regex :=
  match vs with
  | [.STRING s] => if s = "ε" then .STRING "ε" else .node .MAYBE vs
  | [.node .KLEENE_STAR ws] =>
    match ws with
    | [.node .MAYBE w2] => .node .KLEENE_STAR w2
    | _ => .node .KLEENE_STAR ws
  | [.node .MAYBE ws] => .node .MAYBE ws
  | _ => .node .MAYBE vs

/-- Post-step associativity flattening (`src/regex.py` lines 280-283):
iterate `i` over the indices of the original list (the `range` bound is
computed once, here the first `Nat` argument) and splice a child of the
node's own tag into the parent; the suffix test restricts this to
alternations and concatenations. -/
def flattenLoop (t : RTag) : Nat → Nat → List Regex → List Regex
  | 0, _, vs => vs
  | b + 1, i, vs =>
    match vs.getD i dflt with
    | .node t2 ws =>
      if t2 = t ∧ (t = .ALTERNATION ∨ t = .CONCATENATION) then
        flattenLoop t b (i + 1) (vs.take i ++ ws ++ vs.drop (i + 1))
      else flattenLoop t b (i + 1) vs
    | _ => flattenLoop t b (i + 1) vs

/-- Merge-children post-processing applied to every non-`STRING` result
of `simplify_step` before it is returned. -/
def flatten : Regex → Regex
  | .STRING s => .STRING s
  | .node t vs => .node t (flattenLoop t vs.length 0 vs)

mutual
/-- One bottom-up simplification pass, mirroring
`regex.simplify_step`: leaves are returned unchanged, children are
simplified recursively, then the tag-specific rules run, then the
flattening loop (skipped by the early returns for single-child
alternations and concatenations, exactly as the Python `return`
statements skip it). -/
def simplify_step : Regex → Regex
  | .STRING s => .STRING s
  | .node t vs0 =>
    let vs := simplify_list vs0
    match t with
    | .ALTERNATION =>
      if vs.length = 1 then vs.headD dflt else flatten (altRules vs)
    | .CONCATENATION =>
      if vs.length = 1 then vs.headD dflt else flatten (concatRules vs)
    | .KLEENE_STAR => flatten (starRules vs)
    | .KLEENE_PLUS => flatten (plusRules vs)
    | .MAYBE => flatten (maybeRules vs)

/-- Recursive simplification of a child list, mirroring
`list(map(simplify_step, values))`. -/
def simplify_list : List Regex → List Regex
  | [] => []
  | x :: xs => simplify_step x :: simplify_list xs
end

/-- Fixed-point loop of `regex.simplify_regex`: apply `simplify_step`
until the result is structurally equal to the previous value.  The
Python loop is unbounded; the fuel argument makes the embedding total,
and exceeding fuel leaves the result unchanged, so any sufficiently
large fuel computes the Python result. -/
def simplify_regex : Nat → Regex → Regex
  | 0, r => r
  | fuel + 1, r =>
    let r2 := simplify_step r
    if r2 = r then r2 else simplify_regex fuel r2

/-- State of the caller's root object after `simplify_step(r)` returns:
the function mutates `r` in place and returns `r` itself on every path
except the single-child early returns for alternations and
concatenations (lines 82 and 131 of `src/regex.py`), which return the
child and leave the caller's object as the mutated one-child node. -/
def simplify_step_root : Regex → Regex
  | .STRING s => .STRING s
  | .node t vs0 =>
    let vs := simplify_list vs0
    if (t = .ALTERNATION ∨ t = .CONCATENATION) ∧ vs.length = 1 then
      .node t vs
    else simplify_step (.node t vs0)

mutual
/-- Number of tree nodes (a size measure named by the specification's
termination paragraph). -/
def nodeCount : Regex → Nat
  | .STRING _ => 1
  | .node _ vs => 1 + nodeCountL vs

/-- Total node count of a child list. -/
def nodeCountL : List Regex → Nat
  | [] => 0
  | x :: xs => nodeCount x + nodeCountL xs
end

mutual
/-- Depth of a regex tree (the other size measure named by the
specification's termination paragraph). -/
def depth : Regex → Nat
  | .STRING _ => 1
  | .node _ vs => 1 + depthL vs

/-- Maximum depth over a child list. -/
def depthL : List Regex → Nat
  | [] => 0
  | x :: xs => max (depth x) (depthL xs)
end

/-- Joining separator of `Regex.JOINED_BY`. -/
def joinedBy : RTag → String
  | .ALTERNATION => "|"
  | _ => ""

/-- Parenthesisation flags of `Regex.IN_PARENTHESES`. -/
def inParens : RTag → Bool
  | .ALTERNATION => true
  | .CONCATENATION => true
  | _ => false

/-- Postfix operators of `Regex.SUFFIX`. -/
def suffixOf : RTag → String
  | .KLEENE_STAR => "*"
  | .KLEENE_PLUS => "+"
  | .MAYBE => "?"
  | _ => ""

/-- Test modelling `x.type == NodeType.STRING`. -/
def isStringNode : Regex → Bool
  | .STRING _ => true
  | _ => false

mutual
/-- Pretty printer mirroring `Regex.__str__`. -/
def toStr : Regex → String
  | .STRING s => s
  | .node t vs =>
    let strs := toStrL vs
    if 1 < vs.length ∧ inParens t = true then
      match t with
      | .ALTERNATION =>
        "(" ++ String.intercalate (joinedBy t) strs ++ suffixOf t ++ ")"
      | .CONCATENATION =>
        if vs.all isStringNode then
          String.intercalate (joinedBy t) strs ++ suffixOf t
        else
          "(" ++ String.intercalate (joinedBy t) strs ++ suffixOf t ++ ")"
      | _ => String.intercalate (joinedBy t) strs ++ suffixOf t
    else String.intercalate (joinedBy t) strs ++ suffixOf t

/-- Child renderings, mirroring `[str(i) for i in self.values]`. -/
def toStrL : List Regex → List String
  | [] => []
  | x :: xs => toStr x :: toStrL xs
end

/-- Transition record of the constructor input, mirroring the
dictionaries `{"start": ..., "input": ..., "end": ...}` of
`src/dfa.py` (`tgt` stands for the `"end"` field, a Lean keyword). -/
structure TransRec where
  start : Nat
  input : Char
  tgt : Nat
deriving DecidableEq

/-- Validated DFA state, mirroring the fields `DFA.states`,
`DFA.alphabet`, `DFA.initial`, `DFA.accept` and the constructor's raw
`transitions` list (alphabet entries are single characters, hence
`Char`; words are `List Char`). -/
structure PyDFA where
  states : Nat
  alphabet : List Char
  initial : Nat
  accept : List Nat
  trans : List TransRec
deriving DecidableEq

/-- Lookup in the nested transition dictionary
`self.transitions[s][c]`: the dictionary is filled from the record list
in order, later records overwriting earlier ones, and a missing key
gives `none` (Python's `KeyError`). -/
def lookupTrans (ts : List TransRec) (s : Nat) (c : Char) : Option Nat :=
  ts.foldl (fun acc t => if t.start = s ∧ t.input = c then some t.tgt else acc) none

/-- Constructor validation of `DFA.__init__` (`src/dfa.py` lines
12-87): positive state count, duplicate-free alphabet of single
characters, initial and accepting states in `[1, states]`,
duplicate-free accepting states, every transition record within range
with its input in the alphabet, and the transition function complete
for every `(state, symbol)` pair. -/
def ValidDFA (d : PyDFA) : Prop :=
  0 < d.states ∧
  d.alphabet.Nodup ∧
  (1 ≤ d.initial ∧ d.initial ≤ d.states) ∧
  d.accept.Nodup ∧
  (∀ a ∈ d.accept, 1 ≤ a ∧ a ≤ d.states) ∧
  (∀ t ∈ d.trans,
    (1 ≤ t.start ∧ t.start ≤ d.states) ∧ (1 ≤ t.tgt ∧ t.tgt ≤ d.states) ∧
    t.input ∈ d.alphabet) ∧
  (∀ i ∈ List.range' 1 d.states, ∀ a ∈ d.alphabet, (lookupTrans d.trans i a).isSome)

instance (d : PyDFA) : Decidable (ValidDFA d) := by
  unfold ValidDFA; infer_instance

/-- Result of a Python call that either returns a `bool` or raises an
error carrying a message. -/
inductive PyResult where
  | ok (b : Bool)
  | error (msg : String)
deriving DecidableEq

/-- Message of the `ValueError` raised by `DFA.is_accepted` on a
character outside the alphabet (`src/dfa.py` lines 116-117). -/
def inputErrMsg (c : Char) : String :=
  "Given input contains character \x27" ++ String.singleton c ++
    "\x27 that is not part of this automaton\x27s alphabet!"

/-- Transition walk of `DFA.is_accepted` (`src/dfa.py` lines 111-118):
follow `delta` character by character, raising on the first character
with no transition entry (for a valid DFA: the first character outside
the alphabet), and finally test membership in `accept`. -/
def isAcceptedGo (d : PyDFA) : Nat → List Char → PyResult
  | cur, [] => .ok (decide (cur ∈ d.accept))
  | cur, c :: cs =>
    match lookupTrans d.trans cur c with
    | some nxt => isAcceptedGo d nxt cs
    | none => .error (inputErrMsg c)

/-- Mirror of `DFA.is_accepted` (`src/dfa.py` lines 104-118), including
its two fast paths: an empty accepting set accepts exactly the empty
word, and an all-accepting DFA accepts every word, both without reading
the transition table. -/
def is_accepted (d : PyDFA) (input : List Char) : PyResult :=
  if d.accept.length = 0 then .ok (decide (input = []))
  else if d.accept.length = d.states then .ok true
  else isAcceptedGo d d.initial input

/-- Model of `a in self.edge_map[(i, j)]`: the symbol `a` labels an
edge from `i` to `j` exactly when the transition dictionary maps
`(i, a)` to `j`. -/
def edgeMem (d : PyDFA) (i : Nat) (a : Char) (j : Nat) : Bool :=
  lookupTrans d.trans i a = some j

/-- One alphabet-symbol update of the base-layer cell (`src/dfa.py`
lines 180-186): if `a` labels the edge `i → j`, either initialise the
cell with `STRING(a)` or wrap an alternation around the present
content; otherwise leave the cell alone. -/
def r0Step (d : PyDFA) (i j : Nat) (cell : Option Regex) (a : Char) : Option Regex :=
  if edgeMem d i a j then
    match cell with
    | none => some (.STRING (String.singleton a))
    | some r => some (.node .ALTERNATION [r, .STRING (String.singleton a)])
  else cell

/-- Base layer `r_table[0][i][j]` of `DFA.to_regex` (`src/dfa.py` lines
176-186): start from `STRING(ε)` on the diagonal, then fold `r0Step`
over the alphabet in order (`none` models the integer sentinel `0`). -/
def r0 (d : PyDFA) (i j : Nat) : Option Regex :=
  d.alphabet.foldl (r0Step d i j)
    (if i = j then some (.STRING "ε") else none)

/-- Base layer `t_table[0][i][j]` (`src/dfa.py` lines 174-187): the
left edge set receives `(i, j)` each time an alphabet symbol labels the
edge `i → j`; the right edge set stays empty. -/
def t0 (d : PyDFA) (i j : Nat) : Finset (Nat × Nat) × Finset (Nat × Nat) :=
  (if d.alphabet.any (fun a => edgeMem d i a j) then {(i, j)} else ∅, ∅)

/-- Inductive layers `r_table[k][i][j]` of `DFA.to_regex` (`src/dfa.py`
lines 189-260), with the emptiness case split and the four
index-shortcut rewrites (I-IV), each non-empty cell being run through
`simplify_regex`. -/
def rtab (fuel : Nat) (d : PyDFA) : Nat → Nat → Nat → Option Regex
  | 0, i, j => r0 d i j
  | k + 1, i, j =>
    let kk := k + 1
    match rtab fuel d k i j, rtab fuel d k i kk,
          rtab fuel d k kk kk, rtab fuel d k kk j with
    | none, some x, some y, some z =>
      some (simplify_regex fuel (.node .CONCATENATION [x, .node .KLEENE_STAR [y], z]))
    | none, _, _, _ => none
    | some l, some x, some y, some z =>
      let res :=
        if j = kk then
          .node .CONCATENATION
            [x, .node .MAYBE [.node .CONCATENATION [.node .KLEENE_STAR [y], z]]]
        else if i = kk ∧ kk = j then
          .node .ALTERNATION
            [l, .node .CONCATENATION [x, .node .KLEENE_PLUS [x]]]
        else if i = kk then
          .node .ALTERNATION
            [l, .node .CONCATENATION [.node .KLEENE_PLUS [x], z]]
        else if kk = j then
          .node .ALTERNATION
            [l, .node .CONCATENATION [x, .node .KLEENE_PLUS [.node .KLEENE_STAR [y]]]]
        else
          .node .ALTERNATION
            [l, .node .CONCATENATION [x, .node .KLEENE_STAR [y], z]]
      some (simplify_regex fuel res)
    | some l, _, _, _ => some (simplify_regex fuel l)

/-- Dynamically typed Python value appearing in the result positions of
`DFA.to_regex` and in `r_table` cells. -/
inductive PyVal where
  | pyint (n : Int)
  | pystr (s : String)
  | pyRegex (r : Regex)
deriving DecidableEq

/-- Python value stored in an `r_table` cell: the integer `0` for the
empty-set sentinel, otherwise the regex object. -/
def cellToPyVal : Option Regex → PyVal
  | none => .pyint 0
  | some r => .pyRegex r

/-- Final result selection of `DFA.to_regex` (`src/dfa.py` lines
262-272): collect the non-sentinel cells `r_table[N][initial][j]` for
accepting `j`; with no candidate return the empty string `''`, with one
return it, otherwise wrap an alternation. -/
def to_regex_final (fuel : Nat) (d : PyDFA) : PyVal :=
  match d.accept.filterMap (fun j => rtab fuel d d.states d.initial j) with
  | [] => .pystr ""
  | [c] => .pyRegex c
  | cs => .pyRegex (.node .ALTERNATION cs)

/-- Display rule of the UI layer (`src/app.py` lines 180 and 189):
`'Ø' if isinstance(value, int) else str(value)`. -/
def pyDisplay : PyVal → String
  | .pyint _ => "Ø"
  | .pystr s => s
  | .pyRegex r => toStr r

/-- Decimal digit character, modelling Python's `str` on one digit. -/
def digitChar (d : Nat) : Char := Char.ofNat (48 + d)

/-- Decimal representation of a natural number, modelling Python
`str(n)` for non-negative `n`. -/
def natRepr (n : Nat) : List Char :=
  if n < 10 then [digitChar n]
  else natRepr (n / 10) ++ [digitChar (n % 10)]
decreasing_by
  exact Nat.div_lt_self (by omega) (by omega)

/-- Model of Python `int(...)` on a string of decimal digits. -/
def parseNat (cs : List Char) : Nat :=
  cs.foldl (fun a c => a * 10 + (c.toNat - 48)) 0

/-- Mirror of `app.ints_to_tree_label`: build `"a(k, i, j)"`. -/
def ints_to_tree_label (k i j : Nat) : List Char :=
  'a' :: '(' ::
    (natRepr k ++ ',' :: ' ' :: natRepr i ++ ',' :: ' ' :: natRepr j ++ [')'])

/-- Model of Python `str.split(sep)` for a single-character separator
(adjacent separators produce empty parts, like Python). -/
def pysplit (sep : Char) : List Char → List (List Char)
  | [] => [[]]
  | c :: cs =>
    if c = sep then [] :: pysplit sep cs
    else
      match pysplit sep cs with
      | [] => [[c]]
      | h :: t => (c :: h) :: t

/-- Mirror of `app.tree_label_to_ints`: drop `"a("` and the final
`")"`, drop one more character when the remainder still ends in `")"`
(the starred labels), delete commas, split on blanks and parse three
integers. -/
def tree_label_to_ints (label : List Char) : Nat × Nat × Nat :=
  let t1 := (label.drop 2).dropLast
  let t2 := if t1.getLast? = some ')' then t1.dropLast else t1
  let t3 := t2.filter (fun c => decide (c ≠ ','))
  let parts := pysplit ' ' t3
  (parseNat (parts.getD 0 []), parseNat (parts.getD 1 []),
    parseNat (parts.getD 2 []))

open Computability

mutual
/-- Language denoted by a regex tree: the `STRING` leaf `ε` denotes the
language of the empty word, any other literal denotes itself,
alternation denotes the sum of the children's languages, concatenation
their product, and the three quantifiers are the Kleene operations on
the concatenation of the child list (for well-formed trees that list
is a single child). -/
def denote : Regex → Language Char
  | .STRING s => if s = "ε" then 1 else {s.data}
  | .node .ALTERNATION vs => (denoteL vs).sum
  | .node .CONCATENATION vs => (denoteL vs).prod
  | .node .KLEENE_STAR vs => ((denoteL vs).prod)∗
  | .node .KLEENE_PLUS vs => (denoteL vs).prod * ((denoteL vs).prod)∗
  | .node .MAYBE vs => 1 + (denoteL vs).prod

/-- Languages of a child list. -/
def denoteL : List Regex → List (Language Char)
  | [] => []
  | x :: xs => denote x :: denoteL xs
end

/-- Sum of the denotations of a list (language of an alternation's
child list). -/
def sumD (l : List Regex) : Language Char := (l.map denote).sum

/-- Product of the denotations of a list (language of a concatenation's
child list). -/
def prodD (l : List Regex) : Language Char := (l.map denote).prod

mutual
/-- Well-formedness per the data model: `STRING` leaves carry a single
symbol (one character, alphabet symbol or `ε`), `STAR`/`PLUS`/`OPT`
have exactly one child, `ALT`/`CONCAT` at least one child. -/
def wfB : Regex → Bool
  | .STRING s => decide (s.length = 1)
  | .node t vs =>
    (match t with
     | .ALTERNATION => decide (0 < vs.length)
     | .CONCATENATION => decide (0 < vs.length)
     | _ => decide (vs.length = 1)) && wfL vs

/-- Well-formedness of every member of a child list. -/
def wfL : List Regex → Bool
  | [] => true
  | x :: xs => wfB x && wfL xs
end

/-- Concrete DFA of scenarios S1/S5: one state, alphabet `["a"]`,
initial and accepting state `1`, self-loop on `a`. -/
def dfa1 : PyDFA := ⟨1, ['a'], 1, [1], [⟨1, 'a', 1⟩]⟩

/-- Two-state DFA over `["a","b"]` whose accepting set is all states. -/
def d2c : PyDFA :=
  ⟨2, ['a', 'b'], 1, [1, 2], [⟨1, 'a', 1⟩, ⟨1, 'b', 1⟩, ⟨2, 'a', 2⟩, ⟨2, 'b', 2⟩]⟩

/-- Two-state DFA over `["a","b"]` with an empty accepting set. -/
def d2e : PyDFA :=
  ⟨2, ['a', 'b'], 1, [], [⟨1, 'a', 1⟩, ⟨1, 'b', 1⟩, ⟨2, 'a', 2⟩, ⟨2, 'b', 2⟩]⟩

/-- Two-state DFA over `["a","b"]` accepting exactly in state `1`
(neither fast path of `is_accepted` applies). -/
def d2half : PyDFA :=
  ⟨2, ['a', 'b'], 1, [1], [⟨1, 'a', 1⟩, ⟨1, 'b', 1⟩, ⟨2, 'a', 2⟩, ⟨2, 'b', 2⟩]⟩

/-- One-state DFA with empty accepting set (scenario S3 shape). -/
def d3 : PyDFA := ⟨1, ['a'], 1, [], [⟨1, 'a', 1⟩]⟩

/-- Two-state DFA over `["a"]` with no self-loops: state `1` has no
edge to itself, so `r_table[0][1][1]` is `STRING(ε)` while no
transition contributes to it. -/
def d7 : PyDFA := ⟨2, ['a'], 1, [2], [⟨1, 'a', 2⟩, ⟨2, 'a', 1⟩]⟩

/-- Concatenation `a(b|c)` used to show the distribution rule grows the
tree. -/
def r5 : Regex :=
  .node .CONCATENATION [.STRING "a", .node .ALTERNATION [.STRING "b", .STRING "c"]]

/-- Distributed form `ab|ac` of `r5`. -/
def r5x : Regex :=
  .node .ALTERNATION
    [.node .CONCATENATION [.STRING "a", .STRING "b"],
     .node .CONCATENATION [.STRING "a", .STRING "c"]]

/-- Compound child `ab` used to exhibit the duplicate-removal failure. -/
def c4dup : Regex := .node .CONCATENATION [.STRING "a", .STRING "b"]

/-- Alternation `a|a` whose simplification mutates the caller's root
object. -/
def r8 : Regex := .node .ALTERNATION [.STRING "a", .STRING "a"]

/-! ## Theorems -/

/-- Once a tree is a fixed point of `simplify_step`, the fixed-point
loop returns it unchanged for any remaining fuel. -/
theorem simplify_regex_fix (m : Nat) (x : Regex) (h : simplify_step x = x) :
    simplify_regex (m + 1) x = x := by
  simp [simplify_regex, h]

/-- Auxiliary: a fold of the transition-dictionary lookup over records
none of which matches leaves the accumulator unchanged. -/
theorem lookupTrans_foldl_const (s : Nat) (c : Char) :
    ∀ (ts : List TransRec) (acc : Option Nat),
      (∀ t ∈ ts, ¬(t.start = s ∧ t.input = c)) →
      ts.foldl (fun acc t => if t.start = s ∧ t.input = c then some t.tgt else acc) acc
        = acc := by
  intro ts
  induction ts with
  | nil => intro acc _; rfl
  | cons t ts ih =>
    intro acc h
    simp only [List.foldl_cons]
    rw [if_neg (h t (by simp))]
    exact ih acc (fun u hu => h u (by simp [hu]))

/-- Auxiliary: a successful transition lookup comes from some record of
the list with matching key. -/
theorem lookupTrans_some_mem (s : Nat) (c : Char) :
    ∀ (ts : List TransRec) (acc : Option Nat) (v : Nat),
      ts.foldl (fun acc t => if t.start = s ∧ t.input = c then some t.tgt else acc) acc
        = some v →
      (∃ t ∈ ts, t.start = s ∧ t.input = c ∧ t.tgt = v) ∨ acc = some v := by
  intro ts
  induction ts with
  | nil => intro acc v h; exact Or.inr h
  | cons t ts ih =>
    intro acc v h
    simp only [List.foldl_cons] at h
    rcases ih _ v h with ⟨u, hu, h1, h2, h3⟩ | hacc
    · exact Or.inl ⟨u, by simp [hu], h1, h2, h3⟩
    · by_cases hm : t.start = s ∧ t.input = c
      · rw [if_pos hm] at hacc
        exact Or.inl ⟨t, by simp, hm.1, hm.2, by injection hacc⟩
      · rw [if_neg hm] at hacc
        exact Or.inr hacc

/-- Auxiliary: on a valid DFA, looking up a character outside the
alphabet fails (models the `KeyError`). -/
theorem lookupTrans_none_of_not_mem (d : PyDFA) (hv : ValidDFA d)
    (cur : Nat) (c : Char) (hc : c ∉ d.alphabet) :
    lookupTrans d.trans cur c = none := by
  apply lookupTrans_foldl_const
  intro t ht hm
  exact hc (hm.2 ▸ (hv.2.2.2.2.2.1 t ht).2.2)

/-- Auxiliary: on a valid DFA, looking up an alphabet character from a
state in range succeeds and stays in range. -/
theorem lookupTrans_total (d : PyDFA) (hv : ValidDFA d)
    (cur : Nat) (h1 : 1 ≤ cur) (h2 : cur ≤ d.states)
    (c : Char) (hc : c ∈ d.alphabet) :
    ∃ nxt, lookupTrans d.trans cur c = some nxt ∧ 1 ≤ nxt ∧ nxt ≤ d.states := by
  have hcur : cur ∈ List.range' 1 d.states := by
    rw [List.mem_range']
    exact ⟨cur - 1, by omega, by omega⟩
  have hsome := hv.2.2.2.2.2.2 cur hcur c hc
  obtain ⟨nxt, hnxt⟩ := Option.isSome_iff_exists.mp hsome
  rcases lookupTrans_some_mem cur c d.trans none nxt hnxt with ⟨t, ht, _, _, h3⟩ | h
  · refine ⟨nxt, hnxt, ?_, ?_⟩
    · exact h3 ▸ (hv.2.2.2.2.2.1 t ht).2.1.1
    · exact h3 ▸ (hv.2.2.2.2.2.1 t ht).2.1.2
  · cases h

/-- Auxiliary: the transition walk of `is_accepted` raises the input
error naming the first character outside the alphabet. -/
theorem isAcceptedGo_first_bad (d : PyDFA) (hv : ValidDFA d) :
    ∀ (w : List Char) (cur : Nat), 1 ≤ cur → cur ≤ d.states →
      ∀ c, w.find? (fun x => !(decide (x ∈ d.alphabet))) = some c →
      isAcceptedGo d cur w = .error (inputErrMsg c) := by
  intro w
  induction w with
  | nil => intro cur _ _ c h; simp [List.find?] at h
  | cons x xs ih =>
    intro cur hc1 hc2 c h
    by_cases hmem : x ∈ d.alphabet
    · rw [List.find?_cons_of_neg _ (by simp [hmem])] at h
      obtain ⟨nxt, hl, hn1, hn2⟩ := lookupTrans_total d hv cur hc1 hc2 x hmem
      simp only [isAcceptedGo, hl]
      exact ih nxt hn1 hn2 c h
    · rw [List.find?_cons_of_pos _ (by simp [hmem])] at h
      injection h with h
      subst h
      simp only [isAcceptedGo, lookupTrans_none_of_not_mem d hv cur x hmem]

/-- C2 (counterexample): on a valid DFA whose accepting set is all
states, `isAccepted("c")` returns `True` without raising, although
`'c'` is outside the alphabet `["a","b"]` — the claimed input error is
not raised for every valid DFA. -/
theorem is_accepted_fast_path_no_error :
    ValidDFA d2c ∧ 'c' ∉ d2c.alphabet ∧ is_accepted d2c ['c'] = .ok true := by
  refine ⟨by decide, by decide, by decide⟩

/-- C2 (amended): on a valid DFA whose accepting set is neither empty
nor all of the states (so that neither fast path returns early),
`is_accepted` raises the input error naming the first character of the
word that lies outside the alphabet. -/
theorem is_accepted_nonalphabet_error (d : PyDFA) (w : List Char)
    (hv : ValidDFA d) (hne : d.accept ≠ []) (hnall : d.accept.length ≠ d.states)
    (c : Char) (hf : w.find? (fun x => !(decide (x ∈ d.alphabet))) = some c) :
    is_accepted d w = .error (inputErrMsg c) := by
  have hlen : d.accept.length ≠ 0 := by
    simpa [List.length_eq_zero] using hne
  simp only [is_accepted, if_neg hlen, if_neg hnall]
  exact isAcceptedGo_first_bad d hv w d.initial hv.2.2.1.1 hv.2.2.1.2 c hf

/-- C2 (witness): the amended theorem applied to a concrete two-state
DFA over `["a","b"]` accepting exactly state 1 and the word `"c"`. -/
theorem is_accepted_nonalphabet_error_witness :
    is_accepted d2half ['c'] = .error (inputErrMsg 'c') :=
  is_accepted_nonalphabet_error d2half ['c'] (by decide) (by decide) (by decide)
    'c' (by decide)

/-- C3: for the one-state DFA with alphabet `["a"]`, initial and
accepting state `1` and `δ(1,a)=1`, the synthesis table holds
`ALT(STRING(ε), STRING(a))` at `(0,1,1)`, the cell `(1,1,1)` simplifies
to `STAR(STRING(a))` (printed `a*`), and the final returned regex is
that cell, printing as `a*` (the cell is moreover a fixed point of the
simplification step, so the fuel bound is immaterial). -/
theorem to_regex_single_state_a_star :
    rtab 20 dfa1 0 1 1 = some (.node .ALTERNATION [.STRING "ε", .STRING "a"]) ∧
    rtab 20 dfa1 1 1 1 = some (.node .KLEENE_STAR [.STRING "a"]) ∧
    toStr (.node .KLEENE_STAR [.STRING "a"]) = "a*" ∧
    to_regex_final 20 dfa1 = .pyRegex (.node .KLEENE_STAR [.STRING "a"]) ∧
    pyDisplay (to_regex_final 20 dfa1) = "a*" ∧
    simplify_step (.node .KLEENE_STAR [.STRING "a"]) = .node .KLEENE_STAR [.STRING "a"] := by
  refine ⟨by decide, by decide, by decide, by decide, by decide, by decide⟩

/-- C4: the duplicate-removal rule of alternations is implemented with
`dict.fromkeys`, whose keys hash `STRING` nodes by their literal but
every other node by its default (object identity) `repr`; two
structurally equal compound children therefore never collide and both
are kept, so after the rule the alternation still has two structurally
equal `CONCAT(a,b)` children — only `STRING` duplicates are removed. -/
theorem alt_dedup_keeps_compound_duplicates :
    pydedup [c4dup, c4dup] = [c4dup, c4dup] ∧
    simplify_step (.node .ALTERNATION [c4dup, c4dup]) =
      .node .ALTERNATION [c4dup, c4dup] ∧
    pydedup [.STRING "a", .STRING "a"] = [.STRING "a"] := by
  refine ⟨by decide, by decide, by decide⟩

/-- C5 (counterexample): one simplification step applied to
`CONCAT(a, ALT(b, c))` distributes and returns `ALT(ab, ac)`, a tree
that is not structurally equal to the input and whose node count (and
node count plus depth) is strictly larger — the step neither reduces
the claimed measures nor leaves the tree unchanged. -/
theorem simplify_step_increases_size :
    simplify_step r5 = r5x ∧ r5x ≠ r5 ∧
    nodeCount r5 = 5 ∧ nodeCount r5x = 7 ∧
    nodeCount r5 + depth r5 < nodeCount r5x + depth r5x := by
  refine ⟨by decide, by decide, by decide, by decide, by decide⟩

/-- C5 (amended): a step can strictly increase the size measures (the
distribution rule), so no decreasing-measure argument applies;
nevertheless on the exhibited input the outer fixed-point loop still
terminates, reaching the fixed point `ALT(ab, ac)` after one productive
step, for every fuel of at least two. -/
theorem simplify_step_distribution_still_terminates (n : Nat) (h : 2 ≤ n) :
    simplify_regex n r5 = r5x ∧ simplify_step r5x = r5x := by
  obtain ⟨m, rfl⟩ : ∃ m, n = m + 2 := ⟨n - 2, by omega⟩
  refine ⟨?_, by decide⟩
  have h1 : simplify_step r5 = r5x := by decide
  show (if simplify_step r5 = r5 then simplify_step r5
        else simplify_regex (m + 1) (simplify_step r5)) = r5x
  rw [h1, if_neg (by decide)]
  exact simplify_regex_fix m r5x (by decide)

/-- C5 (witness): the amended theorem at fuel 2. -/
theorem simplify_step_distribution_still_terminates_witness :
    simplify_regex 2 r5 = r5x ∧ simplify_step r5x = r5x :=
  simplify_step_distribution_still_terminates 2 (by decide)

/-- C6 (counterexample): for a valid one-state DFA with empty accepting
set the candidate list is empty and `to_regex` returns the Python
string `''` — a different value from the integer `0` that represents
`∅` in the `r_table` cells — and the UI's `isinstance(..., int)` check
therefore displays the empty string, not `Ø`. -/
theorem empty_candidates_sentinel_mismatch :
    ValidDFA d3 ∧
    to_regex_final 20 d3 = .pystr "" ∧
    cellToPyVal none = .pyint 0 ∧
    (PyVal.pystr "") ≠ .pyint 0 ∧
    pyDisplay (.pystr "") = "" ∧
    pyDisplay (.pystr "") ≠ "Ø" := by
  refine ⟨by decide, by decide, by decide, by decide, by decide, by decide⟩

/-- C6 (amended): whenever the candidate list
`[R[N][initial][j] for accepting j, non-empty]` is empty, `to_regex`
returns the empty Python string `''` (printed form: the empty string);
this sentinel is distinct from the integer `0` stored in empty table
cells, and the UI displays it as the empty string rather than `Ø`. -/
theorem empty_candidates_returns_empty_string (fuel : Nat) (d : PyDFA)
    (h : d.accept.filterMap (fun j => rtab fuel d d.states d.initial j) = []) :
    to_regex_final fuel d = .pystr "" ∧
    pyDisplay (to_regex_final fuel d) = "" := by
  constructor
  · simp only [to_regex_final, h]
  · simp only [to_regex_final, h, pyDisplay]

/-- C6 (witness): the amended theorem at the concrete empty-accept DFA. -/
theorem empty_candidates_returns_empty_string_witness :
    to_regex_final 20 d3 = .pystr "" ∧ pyDisplay (to_regex_final 20 d3) = "" :=
  empty_candidates_returns_empty_string 20 d3 rfl

/-- C8 (counterexample): `simplify_regex` hands the caller's own tree
to `simplify_step`, which mutates it in place (the deep copy only
snapshots the comparison value of the loop), so after the call on
`ALT(a, a)` the caller's object has been mutated into `STRING(a)` — it
is not structurally unchanged. -/
theorem simplify_mutates_caller_tree :
    simplify_step_root r8 = .STRING "a" ∧
    simplify_step (.STRING "a") = .STRING "a" ∧
    simplify_step_root r8 ≠ r8 := by
  refine ⟨by decide, by decide, by decide⟩

/-- C8 (amended): the simplifier works directly on the caller's tree,
which may end up structurally different from the input; the simplified
result is delivered through the return value, and on `ALT(a, a)` the
caller's mutated object coincides with that returned tree. -/
theorem simplify_caller_sees_returned_tree :
    simplify_regex 5 r8 = .STRING "a" ∧
    simplify_step_root r8 = simplify_regex 5 r8 := by
  refine ⟨by decide, by decide⟩

/-- C10: on every valid DFA the two fast paths of `is_accepted` return
without consulting the transition table: an empty accepting set yields
`word == ''` and an accepting set containing every state yields `True`,
in both cases for arbitrary words, even ones containing characters
outside the alphabet, and no error is raised. -/
theorem is_accepted_fast_paths (d : PyDFA) (w : List Char) (hv : ValidDFA d) :
    (d.accept = [] → is_accepted d w = .ok (decide (w = []))) ∧
    ((∀ s ∈ List.range' 1 d.states, s ∈ d.accept) → is_accepted d w = .ok true) := by
  constructor
  · intro h
    simp [is_accepted, h]
  · intro h
    have hsub1 : d.accept ⊆ List.range' 1 d.states := by
      intro a ha
      have := hv.2.2.2.2.1 a ha
      rw [List.mem_range']
      exact ⟨a - 1, by omega, by omega⟩
    have hsub2 : List.range' 1 d.states ⊆ d.accept := h
    have hlen1 : d.accept.length ≤ d.states := by
      have := (hv.2.2.2.1.subperm hsub1).length_le
      simpa using this
    have hlen2 : d.states ≤ d.accept.length := by
      have hnd : (List.range' 1 d.states).Nodup := List.nodup_range' _ _
      have := (hnd.subperm hsub2).length_le
      simpa using this
    have hlen : d.accept.length = d.states := le_antisymm hlen1 hlen2
    have hs0 : 0 < d.states := hv.1
    have hpos : d.accept.length ≠ 0 := by omega
    rw [is_accepted, if_neg hpos, if_pos hlen]

/-- C10 (witness): the theorem applied to the empty-accept DFA and to
the all-accepting DFA, both on the out-of-alphabet word `"c"`. -/
theorem is_accepted_fast_paths_witness :
    is_accepted d2e ['c'] = .ok false ∧ is_accepted d2c ['c'] = .ok true := by
  constructor
  · have h := (is_accepted_fast_paths d2e ['c'] (by decide)).1 rfl
    simpa using h
  · exact (is_accepted_fast_paths d2c ['c'] (by decide)).2 (by decide)

/-- Auxiliary: the base-layer fold leaves the cell empty exactly when
it started empty and no alphabet symbol labels the edge. -/
theorem r0_foldl_none (d : PyDFA) (i j : Nat) :
    ∀ (l : List Char) (cell : Option Regex),
      List.foldl (r0Step d i j) cell l = none ↔
        cell = none ∧ ∀ a ∈ l, edgeMem d i a j = false := by
  intro l
  induction l with
  | nil => intro cell; simp
  | cons a l ih =>
    intro cell
    rw [List.foldl_cons, ih, List.forall_mem_cons]
    unfold r0Step
    by_cases he : edgeMem d i a j = true
    · rw [if_pos he]
      cases cell <;> simp [he]
    · rw [if_neg he]
      simp only [Bool.not_eq_true] at he
      simp [he]

/-- Auxiliary: membership of `(i, j)` in the base-layer left edge set
is equivalent to some alphabet symbol labelling the edge `i → j`. -/
theorem t0_mem_iff (d : PyDFA) (i j : Nat) :
    (i, j) ∈ (t0 d i j).1 ↔ ∃ a ∈ d.alphabet, edgeMem d i a j = true := by
  by_cases h : ∃ a ∈ d.alphabet, edgeMem d i a j = true
  · have hb : d.alphabet.any (fun a => edgeMem d i a j) = true := by
      rw [List.any_eq_true]; exact h
    simp [t0, hb, h]
  · have hb : d.alphabet.any (fun a => edgeMem d i a j) ≠ true := by
      simp only [ne_eq, List.any_eq_true]; exact h
    simp [t0, hb, h]

/-- Auxiliary: off the diagonal, the base cell is non-empty exactly
when some alphabet symbol labels the edge. -/
theorem r0_offdiag_ne_none (d : PyDFA) (i j : Nat) (hij : i ≠ j) :
    r0 d i j ≠ none ↔ ∃ a ∈ d.alphabet, edgeMem d i a j = true := by
  unfold r0
  rw [if_neg hij, Ne, r0_foldl_none]
  simp

/-- C7 (counterexample): in the two-state DFA over `["a"]` with no
self-loop at state 1, the diagonal base cell `R[0][1][1]` is the
non-empty `STRING(ε)` while `S[0][1][1].leftEdges` does not contain
`(1,1)` — the claimed equivalence with cell non-emptiness fails on the
diagonal. -/
theorem t0_diagonal_epsilon_no_edge :
    ValidDFA d7 ∧ r0 d7 1 1 = some (.STRING "ε") ∧ ((1, 1) ∉ (t0 d7 1 1).1) := by
  refine ⟨by decide, by decide, by decide⟩

/-- C7 (amended): at `k = 0` the right edge set is empty and the left
edge set contains `(i, j)` exactly when some alphabet symbol labels the
edge `i → j`; off the diagonal this coincides with non-emptiness of the
cell `R[0][i][j]`, while a diagonal cell with no self-loop is
`STRING(ε)` with an empty left edge set. -/
theorem t0_left_edges_iff_symbol_edge (d : PyDFA) (i j : Nat) :
    (t0 d i j).2 = ∅ ∧
    ((i, j) ∈ (t0 d i j).1 ↔ ∃ a ∈ d.alphabet, edgeMem d i a j = true) ∧
    (i ≠ j → (((i, j) ∈ (t0 d i j).1) ↔ r0 d i j ≠ none)) :=
  ⟨rfl, t0_mem_iff d i j,
    fun hij => (t0_mem_iff d i j).trans (r0_offdiag_ne_none d i j hij).symm⟩

/-- C7 (witness): the amended theorem instantiated at the concrete DFA
`d7` and the off-diagonal pair `(1, 2)`. -/
theorem t0_left_edges_iff_symbol_edge_witness :
    (t0 d7 1 2).2 = ∅ ∧ ((1, 2) ∈ (t0 d7 1 2).1 ↔ r0 d7 1 2 ≠ none) :=
  ⟨(t0_left_edges_iff_symbol_edge d7 1 2).1,
   (t0_left_edges_iff_symbol_edge d7 1 2).2.2 (by decide)⟩

/-- Auxiliary: value of a digit character. -/
theorem digitChar_toNat (d : Nat) (h : d < 10) : (digitChar d).toNat = 48 + d := by
  interval_cases d <;> decide

/-- Auxiliary: every character of a decimal representation is a digit. -/
theorem natRepr_digit_range (n : Nat) : ∀ c ∈ natRepr n, 48 ≤ c.toNat ∧ c.toNat ≤ 57 := by
  induction n using Nat.strong_induction_on with
  | _ n ih =>
    intro c hc
    rw [natRepr] at hc
    split at hc
    · next h =>
      simp only [List.mem_singleton] at hc
      subst hc
      rw [digitChar_toNat _ h]
      omega
    · next h =>
      rw [List.mem_append] at hc
      rcases hc with hc | hc
      · exact ih _ (Nat.div_lt_self (by omega) (by omega)) c hc
      · simp only [List.mem_singleton] at hc
        subst hc
        have h10 : n % 10 < 10 := Nat.mod_lt _ (by omega)
        rw [digitChar_toNat _ h10]
        omega

/-- Auxiliary: decimal representations are non-empty. -/
theorem natRepr_ne_nil (n : Nat) : natRepr n ≠ [] := by
  rw [natRepr]; split <;> simp

/-- Auxiliary: folding the digit-accumulation step of `int(...)` over a
decimal representation recovers the number. -/
theorem natRepr_foldl (n : Nat) : ∀ a : Nat,
    (natRepr n).foldl (fun a c => a * 10 + (c.toNat - 48)) a =
      a * 10 ^ (natRepr n).length + n := by
  induction n using Nat.strong_induction_on with
  | _ n ih =>
    intro a
    rw [natRepr]
    split
    · next h =>
      simp [digitChar_toNat _ h]
    · next h =>
      rw [List.foldl_append,
        ih (n / 10) (Nat.div_lt_self (by omega) (by omega)) a]
      have h10 : n % 10 < 10 := Nat.mod_lt _ (by omega)
      simp only [List.foldl_cons, List.foldl_nil, digitChar_toNat _ h10,
        List.length_append, List.length_singleton, pow_succ]
      have hdm := Nat.div_add_mod n 10
      rw [← Nat.mul_assoc]
      generalize a * 10 ^ (natRepr (n / 10)).length = X
      omega

/-- Auxiliary: parsing inverts the decimal representation. -/
theorem parseNat_natRepr (n : Nat) : parseNat (natRepr n) = n := by
  have h := natRepr_foldl n 0
  simpa [parseNat] using h

/-- Auxiliary: digits are not commas. -/
theorem natRepr_filter_comma (n : Nat) :
    (natRepr n).filter (fun c => !decide (c = ',')) = natRepr n := by
  rw [List.filter_eq_self]
  intro c hc
  have h := natRepr_digit_range n c hc
  simp only [Bool.not_eq_true', decide_eq_false_iff_not]
  rintro rfl
  exact absurd h (by decide)

/-- Auxiliary: digits are not blanks. -/
theorem natRepr_ne_space (n : Nat) : ∀ c ∈ natRepr n, c ≠ ' ' := by
  intro c hc h
  subst h
  exact absurd (natRepr_digit_range n _ hc) (by decide)

/-- Auxiliary: digits are not closing parentheses. -/
theorem natRepr_ne_rparen (n : Nat) : ∀ c ∈ natRepr n, c ≠ ')' := by
  intro c hc h
  subst h
  exact absurd (natRepr_digit_range n _ hc) (by decide)

/-- Auxiliary: splitting a separator-free string yields one part. -/
theorem pysplit_sep_free (sep : Char) : ∀ (xs : List Char),
    (∀ c ∈ xs, c ≠ sep) → pysplit sep xs = [xs] := by
  intro xs
  induction xs with
  | nil => intro _; rfl
  | cons c cs ih =>
    intro h
    have hc : c ≠ sep := h c (by simp)
    rw [pysplit, if_neg hc, ih (fun x hx => h x (by simp [hx]))]

/-- Auxiliary: splitting past a separator-free prefix peels one part. -/
theorem pysplit_append (sep : Char) : ∀ (xs rest : List Char),
    (∀ c ∈ xs, c ≠ sep) →
    pysplit sep (xs ++ sep :: rest) = xs :: pysplit sep rest := by
  intro xs
  induction xs with
  | nil => intro rest _; simp [pysplit]
  | cons c cs ih =>
    intro rest h
    have hc : c ≠ sep := h c (by simp)
    rw [List.cons_append, pysplit, if_neg hc,
      ih rest (fun x hx => h x (by simp [hx]))]

/-- Auxiliary: splitting the comma-stripped body on blanks yields the
three digit groups. -/
theorem pysplit_three (k i j : Nat) :
    pysplit ' ' (natRepr k ++ ' ' :: (natRepr i ++ ' ' :: natRepr j)) =
      [natRepr k, natRepr i, natRepr j] := by
  rw [pysplit_append ' ' _ _ (natRepr_ne_space k),
    pysplit_append ' ' _ _ (natRepr_ne_space i),
    pysplit_sep_free ' ' _ (natRepr_ne_space j)]

/-- Auxiliary: last element of an append with a non-empty right part. -/
theorem getLast?_append_right (l1 l2 : List Char) (h : l2 ≠ []) :
    (l1 ++ l2).getLast? = l2.getLast? := by
  obtain ⟨c, hc⟩ := Option.isSome_iff_exists.mp (List.getLast?_isSome.mpr h)
  rw [List.getLast?_append, hc]
  rfl

/-- Auxiliary: last element past a leading cons with a non-empty tail. -/
theorem getLast?_cons_right (c : Char) (l : List Char) (h : l ≠ []) :
    (c :: l).getLast? = l.getLast? := by
  have h2 : c :: l = [c] ++ l := rfl
  rw [h2, getLast?_append_right _ _ h]

/-- Auxiliary: the label body (digits, commas, blanks) does not end in
a closing parenthesis. -/
theorem body_getLast_ne (k i j : Nat) :
    (natRepr k ++ ',' :: ' ' :: (natRepr i ++ ',' :: ' ' :: natRepr j)).getLast?
      ≠ some ')' := by
  have hJ := natRepr_ne_nil j
  obtain ⟨c, hc⟩ := Option.isSome_iff_exists.mp (List.getLast?_isSome.mpr hJ)
  have hcd : c ∈ natRepr j := List.mem_of_getLast?_eq_some hc
  rw [getLast?_append_right _ _ (by simp),
    getLast?_cons_right _ _ (by simp),
    getLast?_cons_right _ _ (by simp [natRepr_ne_nil]),
    getLast?_append_right _ _ (by simp),
    getLast?_cons_right _ _ (by simp [natRepr_ne_nil]),
    getLast?_cons_right _ _ hJ, hc]
  intro hcontra
  injection hcontra with hcontra
  exact natRepr_ne_rparen j c hcd hcontra

/-- Auxiliary: comma removal on the label body keeps digits and blanks. -/
theorem body_filter (k i j : Nat) :
    (natRepr k ++ ',' :: ' ' :: (natRepr i ++ ',' :: ' ' :: natRepr j)).filter
        (fun c => decide (c ≠ ',')) =
      natRepr k ++ ' ' :: (natRepr i ++ ' ' :: natRepr j) := by
  simp +decide [List.filter_append, List.filter_cons, natRepr_filter_comma]

/-- C9: parsing a tree label inverts its construction — for all
`k, i, j`, `tree_label_to_ints "a(k, i, j)" = (k, i, j)`, and the same
holds for the starred Kleene child labels `"a(k, i, j)*"`. -/
theorem tree_label_roundtrip (k i j : Nat) :
    tree_label_to_ints (ints_to_tree_label k i j) = (k, i, j) ∧
    tree_label_to_ints (ints_to_tree_label k i j ++ ['*']) = (k, i, j) := by
  have hbodyassoc :
      natRepr k ++ ',' :: ' ' :: natRepr i ++ ',' :: ' ' :: natRepr j ++ [')'] =
        (natRepr k ++ ',' :: ' ' :: (natRepr i ++ ',' :: ' ' :: natRepr j)) ++ [')'] := by
    simp
  have hparse :
      (parseNat (natRepr k), parseNat (natRepr i), parseNat (natRepr j)) = (k, i, j) := by
    rw [parseNat_natRepr, parseNat_natRepr, parseNat_natRepr]
  constructor
  · rw [tree_label_to_ints, ints_to_tree_label]
    simp only [List.drop_succ_cons, List.drop_zero]
    rw [hbodyassoc, List.dropLast_concat, if_neg (body_getLast_ne k i j),
      body_filter, pysplit_three]
    exact hparse
  · rw [tree_label_to_ints, ints_to_tree_label]
    simp only [List.cons_append, List.drop_succ_cons, List.drop_zero]
    rw [hbodyassoc, List.append_assoc, ← List.append_assoc, List.dropLast_concat,
      if_pos (by rw [getLast?_append_right _ _ (by simp)]; rfl),
      List.dropLast_concat, body_filter, pysplit_three]
    exact hparse

/-! ### Language preservation of the simplifier (claim C1) -/

theorem denoteL_eq_map (l : List Regex) : denoteL l = l.map denote := by
  induction l with
  | nil => rfl
  | cons x xs ih => rw [denoteL, ih, List.map_cons]

@[simp] theorem denote_alt (vs : List Regex) :
    denote (.node .ALTERNATION vs) = sumD vs := by
  rw [denote, denoteL_eq_map]; rfl

@[simp] theorem denote_concat (vs : List Regex) :
    denote (.node .CONCATENATION vs) = prodD vs := by
  rw [denote, denoteL_eq_map]; rfl

@[simp] theorem denote_star (vs : List Regex) :
    denote (.node .KLEENE_STAR vs) = (prodD vs)∗ := by
  rw [denote, denoteL_eq_map]; rfl

@[simp] theorem denote_plus (vs : List Regex) :
    denote (.node .KLEENE_PLUS vs) = prodD vs * (prodD vs)∗ := by
  rw [denote, denoteL_eq_map]; rfl

@[simp] theorem denote_maybe (vs : List Regex) :
    denote (.node .MAYBE vs) = 1 + prodD vs := by
  rw [denote, denoteL_eq_map]; rfl

@[simp] theorem denote_eps : denote (.STRING "ε") = 1 := by
  rw [denote]; simp

@[simp] theorem sumD_nil : sumD ([] : List Regex) = 0 := rfl

@[simp] theorem sumD_cons (x : Regex) (l : List Regex) :
    sumD (x :: l) = denote x + sumD l := by
  simp [sumD]

@[simp] theorem sumD_append (l1 l2 : List Regex) :
    sumD (l1 ++ l2) = sumD l1 + sumD l2 := by
  simp [sumD]

@[simp] theorem sumD_singleton (x : Regex) : sumD [x] = denote x := by
  simp [sumD]

@[simp] theorem prodD_nil : prodD ([] : List Regex) = 1 := rfl

@[simp] theorem prodD_cons (x : Regex) (l : List Regex) :
    prodD (x :: l) = denote x * prodD l := by
  simp [prodD]

@[simp] theorem prodD_append (l1 l2 : List Regex) :
    prodD (l1 ++ l2) = prodD l1 * prodD l2 := by
  simp [prodD]

@[simp] theorem prodD_singleton (x : Regex) : prodD [x] = denote x := by
  simp [prodD]

theorem sumD_perm {l1 l2 : List Regex} (h : l1.Perm l2) : sumD l1 = sumD l2 :=
  (h.map denote).sum_eq

theorem wfL_iff (l : List Regex) : wfL l = true ↔ ∀ x ∈ l, wfB x = true := by
  induction l with
  | nil => simp [wfL]
  | cons x xs ih => simp [wfL, ih]

theorem wf_alt_iff (vs : List Regex) :
    wfB (.node .ALTERNATION vs) = true ↔ vs ≠ [] ∧ ∀ x ∈ vs, wfB x = true := by
  rw [wfB, Bool.and_eq_true, wfL_iff]
  simp [List.length_pos]

theorem wf_concat_iff (vs : List Regex) :
    wfB (.node .CONCATENATION vs) = true ↔ vs ≠ [] ∧ ∀ x ∈ vs, wfB x = true := by
  rw [wfB, Bool.and_eq_true, wfL_iff]
  simp [List.length_pos]

theorem wf_wrap_iff (t : RTag) (vs : List Regex)
    (ht : t = .KLEENE_STAR ∨ t = .KLEENE_PLUS ∨ t = .MAYBE) :
    wfB (.node t vs) = true ↔ ∃ c, vs = [c] ∧ wfB c = true := by
  rcases ht with rfl | rfl | rfl <;>
  · simp only [wfB, Bool.and_eq_true, wfL_iff]
    constructor
    · rintro ⟨h1, h2⟩
      simp only [decide_eq_true_eq] at h1
      rw [List.length_eq_one] at h1
      obtain ⟨c, rfl⟩ := h1
      exact ⟨c, rfl, h2 c (by simp)⟩
    · rintro ⟨c, rfl, hc⟩
      exact ⟨by simp, by simpa using hc⟩

theorem lang_le_add_left (a b : Language Char) : a ≤ a + b := by
  rw [Language.le_iff, ← add_assoc, Language.add_self]

theorem lang_le_add_right (a b : Language Char) : b ≤ a + b := by
  rw [Language.le_iff, add_comm a b, ← add_assoc, Language.add_self]

theorem lang_add_absorb {a b : Language Char} (h : a ≤ b) : a + b = b :=
  (Language.le_iff a b).mp h

theorem mem_le_sumD {x : Regex} : ∀ {l : List Regex}, x ∈ l → denote x ≤ sumD l := by
  intro l
  induction l with
  | nil => intro h; cases h
  | cons y ys ih =>
    intro h
    rw [sumD_cons]
    rcases List.mem_cons.mp h with rfl | h
    · exact lang_le_add_left _ _
    · exact le_trans (ih h) (lang_le_add_right _ _)

theorem lang_le_self_mul_kstar (a : Language Char) : a ≤ a * a∗ := by
  have h := mul_le_mul_left' (one_le_kstar (a := a)) a
  simpa using h

theorem lang_maybe_mul_kstar (a : Language Char) : (1 + a) * a∗ = a∗ := by
  rw [add_mul, one_mul, add_comm]
  exact lang_add_absorb mul_kstar_le_kstar

theorem lang_kstar_mul_maybe (a : Language Char) : a∗ * (1 + a) = a∗ := by
  rw [mul_add, mul_one, add_comm]
  exact lang_add_absorb kstar_mul_le_kstar

theorem lang_maybe_kstar (a : Language Char) : (1 + a)∗ = a∗ := by
  apply le_antisymm
  · exact kstar_le_of_mul_le_left one_le_kstar (le_of_eq (lang_kstar_mul_maybe a))
  · exact kstar_mono (lang_le_add_right 1 a)

theorem lang_plus_kstar (a : Language Char) : (a * a∗)∗ = a∗ := by
  apply le_antisymm
  · apply kstar_le_of_mul_le_left one_le_kstar
    rw [← mul_assoc, Language.mul_self_kstar_comm, mul_assoc, kstar_mul_kstar]
    exact mul_kstar_le_kstar
  · exact kstar_mono (lang_le_self_mul_kstar a)

theorem lang_self_mul_kstar_of_one_le {a : Language Char} (h : 1 ≤ a) :
    a * a∗ = a∗ := by
  apply le_antisymm mul_kstar_le_kstar
  calc a∗ = 1 * a∗ := (one_mul _).symm
    _ ≤ a * a∗ := mul_le_mul_right' h _

theorem getD_mem (vs : List Regex) (i : Nat) (h : i < vs.length) :
    vs.getD i dflt ∈ vs := by
  rw [List.getD_eq_getElem _ _ h]
  exact List.getElem_mem h

theorem list_shape2 (vs : List Regex) (i : Nat) (h : i + 1 < vs.length) :
    vs = vs.take i ++ vs.getD i dflt :: vs.getD (i + 1) dflt :: vs.drop (i + 2) := by
  have h1 : i < vs.length := by omega
  rw [List.getD_eq_getElem _ _ h1, List.getD_eq_getElem _ _ h]
  conv_lhs => rw [← List.take_append_drop i vs]
  congr 1
  rw [List.drop_eq_getElem_cons h1]
  congr 1
  exact List.drop_eq_getElem_cons h

theorem eraseIdx_shape_i (vs : List Regex) (i : Nat) (h : i + 1 < vs.length) :
    vs.eraseIdx i = vs.take i ++ vs.getD (i + 1) dflt :: vs.drop (i + 2) := by
  rw [List.eraseIdx_eq_take_drop_succ, List.drop_eq_getElem_cons h,
    List.getD_eq_getElem _ _ h]

theorem eraseIdx_shape_succ : ∀ (vs : List Regex) (i : Nat), i + 1 < vs.length →
    vs.eraseIdx (i + 1) = vs.take i ++ vs.getD i dflt :: vs.drop (i + 2) := by
  intro vs
  induction vs with
  | nil => intro i h; simp at h
  | cons x xs ih =>
    intro i h
    cases i with
    | zero =>
      cases xs with
      | nil => simp at h
      | cons y ys => simp [List.eraseIdx_cons_succ, List.eraseIdx_cons_zero]
    | succ n =>
      have h2 : n + 1 < xs.length := by simpa using h
      simp [List.eraseIdx_cons_succ, ih n h2, List.getD_cons_succ]

theorem sumD_eraseIdx (vs : List Regex) (i : Nat) (h : i < vs.length) :
    sumD vs = denote (vs.getD i dflt) + sumD (vs.eraseIdx i) := by
  rw [List.eraseIdx_eq_take_drop_succ, List.getD_eq_getElem _ _ h]
  conv_lhs => rw [← List.take_append_drop i vs, List.drop_eq_getElem_cons h]
  simp only [sumD_append, sumD_cons]
  rw [← add_assoc, ← add_assoc, add_comm (sumD (vs.take i))]

theorem sumD_set_eraseIdx (vs : List Regex) (i : Nat) (x : Regex)
    (h : i < vs.length) :
    sumD (vs.set i x) = denote x + sumD (vs.eraseIdx i) := by
  rw [List.set_eq_take_append_cons_drop, if_pos h, List.eraseIdx_eq_take_drop_succ]
  simp only [sumD_append, sumD_cons]
  rw [← add_assoc, ← add_assoc, add_comm (sumD (vs.take i))]

theorem keyEq_eq {x y : Regex} (h : keyEq x y = true) : x = y := by
  cases x <;> cases y <;> simp [keyEq] at h ⊢ <;> exact h

theorem pydedupGo_sumD : ∀ (xs seen : List Regex) (S : Language Char),
    (∀ y ∈ seen, denote y ≤ S) →
    sumD (pydedupGo seen xs) + S = sumD xs + S := by
  intro xs
  induction xs with
  | nil => intro seen S _; rfl
  | cons x xs ih =>
    intro seen S hS
    by_cases h : seen.any (keyEq x) = true
    · rw [pydedupGo, if_pos h]
      obtain ⟨y, hy, hk⟩ := List.any_eq_true.mp h
      have hxy : x = y := keyEq_eq hk
      have hle : denote x ≤ S := hxy ▸ hS y hy
      rw [ih seen S hS, sumD_cons, add_comm (denote x) (sumD xs), add_assoc,
        lang_add_absorb hle]
    · rw [pydedupGo, if_neg h, sumD_cons, sumD_cons]
      have hS2 : ∀ y ∈ x :: seen, denote y ≤ denote x + S := by
        intro y hy
        rcases List.mem_cons.mp hy with rfl | hy
        · exact lang_le_add_left _ _
        · exact (hS y hy).trans (lang_le_add_right _ _)
      have hx := ih (x :: seen) (denote x + S) hS2
      calc denote x + sumD (pydedupGo (x :: seen) xs) + S
          = sumD (pydedupGo (x :: seen) xs) + (denote x + S) := by
            rw [add_comm (denote x) (sumD (pydedupGo (x :: seen) xs)), add_assoc]
        _ = sumD xs + (denote x + S) := hx
        _ = denote x + sumD xs + S := by
            rw [add_comm (denote x) (sumD xs), add_assoc]

theorem pydedup_sumD (vs : List Regex) : sumD (pydedup vs) = sumD vs := by
  have h := pydedupGo_sumD vs [] 0 (by intro y hy; cases hy)
  simpa using h

theorem pydedupGo_subset : ∀ (xs seen : List Regex) (y : Regex),
    y ∈ pydedupGo seen xs → y ∈ xs := by
  intro xs
  induction xs with
  | nil => intro seen y h; cases h
  | cons x xs ih =>
    intro seen y h
    rw [pydedupGo] at h
    split at h
    · exact List.mem_cons_of_mem _ (ih _ _ h)
    · rcases List.mem_cons.mp h with rfl | h
      · simp
      · exact List.mem_cons_of_mem _ (ih _ _ h)

theorem pydedup_ne_nil (vs : List Regex) (h : vs ≠ []) : pydedup vs ≠ [] := by
  cases vs with
  | nil => exact absurd rfl h
  | cons x xs => simp [pydedup, pydedupGo]

theorem pyErase_subset : ∀ (l : List Regex) (e y : Regex),
    y ∈ pyErase l e → y ∈ l := by
  intro l
  induction l with
  | nil => intro e y h; cases h
  | cons x xs ih =>
    intro e y h
    rw [pyErase] at h
    split at h
    · exact List.mem_cons_of_mem _ h
    · rcases List.mem_cons.mp h with rfl | h
      · simp
      · exact List.mem_cons_of_mem _ (ih _ _ h)

theorem pyErase_of_not_mem : ∀ (l : List Regex) (e : Regex),
    e ∉ l → pyErase l e = l := by
  intro l
  induction l with
  | nil => intro e _; rfl
  | cons x xs ih =>
    intro e h
    have hxe : x ≠ e := by
      intro hx
      subst hx
      exact h (List.mem_cons_self x xs)
    rw [pyErase, if_neg hxe, ih e (fun hx => h (List.mem_cons_of_mem _ hx))]

theorem pyErase_perm : ∀ (l : List Regex) (e : Regex),
    e ∈ l → l.Perm (e :: pyErase l e) := by
  intro l
  induction l with
  | nil => intro e h; cases h
  | cons x xs ih =>
    intro e h
    rw [pyErase]
    by_cases hx : x = e
    · subst hx
      rw [if_pos rfl]
    · rw [if_neg hx]
      have he : e ∈ xs := by
        rcases List.mem_cons.mp h with h1 | h1
        · exact absurd h1.symm hx
        · exact h1
      exact ((ih e he).cons x).trans (List.Perm.swap e x _)

theorem mem_pyErase_of_ne : ∀ (l : List Regex) (e w : Regex),
    w ∈ l → w ≠ e → w ∈ pyErase l e := by
  intro l
  induction l with
  | nil => intro e w h; cases h
  | cons x xs ih =>
    intro e w h hne
    rw [pyErase]
    split
    · next hx =>
      rcases List.mem_cons.mp h with rfl | h1
      · exact absurd hx hne
      · exact h1
    · rcases List.mem_cons.mp h with rfl | h1
      · simp
      · exact List.mem_cons_of_mem _ (ih _ _ h1 hne)

theorem wrapContents_mem : ∀ (l : List Regex) (e : Regex),
    e ∈ wrapContents l →
    ∃ w ∈ l, isWrapNode w = true ∧ firstChildD w = e := by
  intro l
  induction l with
  | nil => intro e h; cases h
  | cons x xs ih =>
    intro e h
    rw [wrapContents] at h
    split at h
    · next hx =>
      rcases List.mem_cons.mp h with rfl | h1
      · exact ⟨x, by simp, hx, rfl⟩
      · obtain ⟨w, hw, h2, h3⟩ := ih _ h1
        exact ⟨w, List.mem_cons_of_mem _ hw, h2, h3⟩
    · obtain ⟨w, hw, h2, h3⟩ := ih _ h
      exact ⟨w, List.mem_cons_of_mem _ hw, h2, h3⟩

theorem wrapContents_eq_nil : ∀ (l : List Regex),
    (∀ w ∈ l, isWrapNode w = false) → wrapContents l = [] := by
  intro l
  induction l with
  | nil => intro _; rfl
  | cons x xs ih =>
    intro h
    rw [wrapContents, if_neg (by simp [h x (by simp)]), ih]
    intro w hw
    exact h w (List.mem_cons_of_mem _ hw)

theorem removeAbsorbed_nil_wrapping : ∀ (es acc : List Regex),
    removeAbsorbed [] es acc = acc := by
  intro es
  induction es with
  | nil => intro acc; rfl
  | cons e es ih =>
    intro acc
    rw [removeAbsorbed]
    simp only [List.not_mem_nil, if_neg (fun h => h)]
    exact ih acc

theorem wrap_absorbs (w : Regex) (hwf : wfB w = true) (hw : isWrapNode w = true) :
    denote (firstChildD w) ≤ denote w := by
  cases w with
  | STRING s => simp [isWrapNode] at hw
  | node t vs =>
    have ht : t = .KLEENE_STAR ∨ t = .KLEENE_PLUS ∨ t = .MAYBE := by
      cases t <;> simp [isWrapNode] at hw ⊢
    obtain ⟨c, rfl, _⟩ := (wf_wrap_iff t vs ht).mp hwf
    rcases ht with rfl | rfl | rfl
    · simpa [firstChildD] using le_kstar
    · simpa [firstChildD] using lang_le_self_mul_kstar (denote c)
    · simpa [firstChildD] using lang_le_add_right 1 (denote c)

theorem removeAbsorbed_sound (vs1 : List Regex) :
    ∀ (es acc : List Regex),
    (∀ e ∈ es, isWrapNode e = false) →
    (∀ x ∈ acc, wfB x = true) →
    (∀ w ∈ vs1, isWrapNode w = true → w ∈ acc) →
    sumD (removeAbsorbed (wrapContents vs1) es acc) = sumD acc ∧
    (∀ x ∈ removeAbsorbed (wrapContents vs1) es acc, x ∈ acc) ∧
    (∀ w ∈ vs1, isWrapNode w = true →
      w ∈ removeAbsorbed (wrapContents vs1) es acc) := by
  intro es
  induction es with
  | nil => intro acc _ _ hinv; exact ⟨rfl, fun x hx => hx, hinv⟩
  | cons e es ih =>
    intro acc hes haccwf hinv
    have hew : isWrapNode e = false := hes e (by simp)
    have hes2 : ∀ x ∈ es, isWrapNode x = false :=
      fun x hx => hes x (List.mem_cons_of_mem _ hx)
    rw [removeAbsorbed]
    by_cases hmem : e ∈ wrapContents vs1
    · rw [if_pos hmem]
      obtain ⟨w, hwvs, hwrap, hchild⟩ := wrapContents_mem vs1 e hmem
      have hwacc : w ∈ acc := hinv w hwvs hwrap
      have hwne : w ≠ e := by
        intro h
        rw [h, hew] at hwrap
        cases hwrap
      have hwerase : w ∈ pyErase acc e := mem_pyErase_of_ne acc e w hwacc hwne
      have herasewf : ∀ x ∈ pyErase acc e, wfB x = true :=
        fun x hx => haccwf x (pyErase_subset acc e x hx)
      have hinv2 : ∀ u ∈ vs1, isWrapNode u = true → u ∈ pyErase acc e := by
        intro u hu hwu
        refine mem_pyErase_of_ne acc e u (hinv u hu hwu) ?_
        intro hue
        rw [hue, hew] at hwu
        cases hwu
      obtain ⟨hsum, hsub, hinv3⟩ := ih (pyErase acc e) hes2 herasewf hinv2
      refine ⟨?_, ?_, ?_⟩
      · rw [hsum]
        by_cases he : e ∈ acc
        · have hperm := pyErase_perm acc e he
          rw [sumD_perm hperm, sumD_cons]
          have hle : denote e ≤ sumD (pyErase acc e) := by
            have h1 : denote e ≤ denote w := by
              rw [← hchild]
              exact wrap_absorbs w (haccwf w hwacc) hwrap
            exact h1.trans (mem_le_sumD hwerase)
          exact (lang_add_absorb hle).symm ▸ rfl
        · rw [pyErase_of_not_mem acc e he]
      · exact fun x hx => pyErase_subset acc e x (hsub x hx)
      · exact hinv3
    · rw [if_neg hmem]
      exact ih acc hes2 haccwf hinv

theorem pyIndex_some (p : Regex → Bool) :
    ∀ (l : List Regex) (i : Nat), pyIndex p l = some i →
      i < l.length ∧ p (l.getD i dflt) = true := by
  intro l
  induction l with
  | nil => intro i h; cases h
  | cons x xs ih =>
    intro i h
    rw [pyIndex] at h
    split at h
    · next hp =>
      injection h with h
      subst h
      exact ⟨by simp, by simpa using hp⟩
    · obtain ⟨j, hj, rfl⟩ := Option.map_eq_some'.mp h
      obtain ⟨h1, h2⟩ := ih j hj
      exact ⟨by simpa using h1, by simpa using h2⟩

theorem eq_eps_of_isEpsilonString {x : Regex} (h : isEpsilonString x = true) :
    x = .STRING "ε" := by
  cases x with
  | STRING s =>
    simp only [isEpsilonString, decide_eq_true_eq] at h
    rw [h]
  | node t vs => simp [isEpsilonString] at h

theorem maybe_of_isMaybeNode {x : Regex} (h : isMaybeNode x = true) :
    ∃ ms, x = .node .MAYBE ms := by
  cases x with
  | STRING s => simp [isMaybeNode] at h
  | node t vs =>
    cases t <;> simp [isMaybeNode] at h
    exact ⟨vs, rfl⟩

theorem sumD_decomp1 (vs : List Regex) (i : Nat) (h : i < vs.length) :
    sumD vs = sumD (vs.take i) + (denote (vs.getD i dflt) + sumD (vs.drop (i + 1))) := by
  conv_lhs => rw [← List.take_append_drop i vs, List.drop_eq_getElem_cons h]
  rw [sumD_append, sumD_cons, List.getD_eq_getElem _ _ h]

theorem prodD_decomp1 (vs : List Regex) (i : Nat) (h : i < vs.length) :
    prodD vs = prodD (vs.take i) * (denote (vs.getD i dflt) * prodD (vs.drop (i + 1))) := by
  conv_lhs => rw [← List.take_append_drop i vs, List.drop_eq_getElem_cons h]
  rw [prodD_append, prodD_cons, List.getD_eq_getElem _ _ h]

theorem prodD_decomp2 (vs : List Regex) (i : Nat) (h : i + 1 < vs.length) :
    prodD vs = prodD (vs.take i) *
      (denote (vs.getD i dflt) * (denote (vs.getD (i + 1) dflt) * prodD (vs.drop (i + 2)))) := by
  conv_lhs => rw [list_shape2 vs i h]
  rw [prodD_append, prodD_cons, prodD_cons]

theorem getD_lt_of_node (vs : List Regex) (i : Nat) (t : RTag) (ws : List Regex)
    (h : vs.getD i dflt = .node t ws) : i < vs.length := by
  by_contra hi
  rw [List.getD_eq_default _ _ (by omega)] at h
  cases h

theorem flattenLoop_other (t : RTag)
    (ht : ¬(t = .ALTERNATION ∨ t = .CONCATENATION)) :
    ∀ (b i : Nat) (vs : List Regex), flattenLoop t b i vs = vs := by
  intro b
  induction b with
  | zero => intro i vs; rfl
  | succ b ih =>
    intro i vs
    rw [flattenLoop]
    split
    · rw [if_neg (fun hc => ht hc.2), ih]
    · exact ih _ _

theorem flattenLoop_alt : ∀ (b i : Nat) (vs : List Regex),
    (∀ x ∈ vs, wfB x = true) →
    sumD (flattenLoop .ALTERNATION b i vs) = sumD vs ∧
    (∀ x ∈ flattenLoop .ALTERNATION b i vs, wfB x = true) ∧
    (vs ≠ [] → flattenLoop .ALTERNATION b i vs ≠ []) := by
  intro b
  induction b with
  | zero => intro i vs h; exact ⟨rfl, h, fun h2 => h2⟩
  | succ b ih =>
    intro i vs hwf
    rw [flattenLoop]
    split
    · next t2 ws heq =>
      by_cases hc : t2 = RTag.ALTERNATION
      · subst hc
        rw [if_pos ⟨rfl, Or.inl rfl⟩]
        have hi : i < vs.length := getD_lt_of_node vs i _ ws heq
        have hmem : Regex.node .ALTERNATION ws ∈ vs := heq ▸ getD_mem vs i hi
        obtain ⟨hwsne, hwswf⟩ := (wf_alt_iff ws).mp (hwf _ hmem)
        have hwf2 : ∀ x ∈ vs.take i ++ ws ++ vs.drop (i + 1), wfB x = true := by
          intro x hx
          rcases List.mem_append.mp hx with hx | hx
          · rcases List.mem_append.mp hx with hx | hx
            · exact hwf x (List.take_subset _ _ hx)
            · exact hwswf x hx
          · exact hwf x (List.drop_subset _ _ hx)
        obtain ⟨ih1, ih2, ih3⟩ := ih (i + 1) _ hwf2
        refine ⟨?_, ih2, fun _ => ih3 (by simp [hwsne])⟩
        rw [ih1, sumD_append, sumD_append, sumD_decomp1 vs i hi, heq, denote_alt,
          add_assoc]
      · rw [if_neg (fun hc2 => hc hc2.1)]
        exact ih _ _ hwf
    · exact ih _ _ hwf

theorem flattenLoop_concat : ∀ (b i : Nat) (vs : List Regex),
    (∀ x ∈ vs, wfB x = true) →
    prodD (flattenLoop .CONCATENATION b i vs) = prodD vs ∧
    (∀ x ∈ flattenLoop .CONCATENATION b i vs, wfB x = true) ∧
    (vs ≠ [] → flattenLoop .CONCATENATION b i vs ≠ []) := by
  intro b
  induction b with
  | zero => intro i vs h; exact ⟨rfl, h, fun h2 => h2⟩
  | succ b ih =>
    intro i vs hwf
    rw [flattenLoop]
    split
    · next t2 ws heq =>
      by_cases hc : t2 = RTag.CONCATENATION
      · subst hc
        rw [if_pos ⟨rfl, Or.inr rfl⟩]
        have hi : i < vs.length := getD_lt_of_node vs i _ ws heq
        have hmem : Regex.node .CONCATENATION ws ∈ vs := heq ▸ getD_mem vs i hi
        obtain ⟨hwsne, hwswf⟩ := (wf_concat_iff ws).mp (hwf _ hmem)
        have hwf2 : ∀ x ∈ vs.take i ++ ws ++ vs.drop (i + 1), wfB x = true := by
          intro x hx
          rcases List.mem_append.mp hx with hx | hx
          · rcases List.mem_append.mp hx with hx | hx
            · exact hwf x (List.take_subset _ _ hx)
            · exact hwswf x hx
          · exact hwf x (List.drop_subset _ _ hx)
        obtain ⟨ih1, ih2, ih3⟩ := ih (i + 1) _ hwf2
        refine ⟨?_, ih2, fun _ => ih3 (by simp [hwsne])⟩
        rw [ih1, prodD_append, prodD_append, prodD_decomp1 vs i hi, heq,
          denote_concat, mul_assoc]
      · rw [if_neg (fun hc2 => hc hc2.1)]
        exact ih _ _ hwf
    · exact ih _ _ hwf

theorem flatten_of_wrap (t : RTag)
    (ht : ¬(t = .ALTERNATION ∨ t = .CONCATENATION)) (vs : List Regex) :
    flatten (.node t vs) = .node t vs := by
  rw [flatten, flattenLoop_other t ht]

theorem flatten_alt_sound (vs : List Regex) (hne : vs ≠ [])
    (hwf : ∀ x ∈ vs, wfB x = true) :
    denote (flatten (.node .ALTERNATION vs)) = sumD vs ∧
    wfB (flatten (.node .ALTERNATION vs)) = true := by
  obtain ⟨hs, hw, hn⟩ := flattenLoop_alt vs.length 0 vs hwf
  rw [flatten]
  exact ⟨by rw [denote_alt, hs], (wf_alt_iff _).mpr ⟨hn hne, hw⟩⟩

theorem flatten_concat_sound (vs : List Regex) (hne : vs ≠ [])
    (hwf : ∀ x ∈ vs, wfB x = true) :
    denote (flatten (.node .CONCATENATION vs)) = prodD vs ∧
    wfB (flatten (.node .CONCATENATION vs)) = true := by
  obtain ⟨hs, hw, hn⟩ := flattenLoop_concat vs.length 0 vs hwf
  rw [flatten]
  exact ⟨by rw [denote_concat, hs], (wf_concat_iff _).mpr ⟨hn hne, hw⟩⟩

theorem flatten_sound (x : Regex) (hwf : wfB x = true) :
    denote (flatten x) = denote x ∧ wfB (flatten x) = true := by
  cases x with
  | STRING s => exact ⟨rfl, hwf⟩
  | node t vs =>
    cases t with
    | ALTERNATION =>
      obtain ⟨hne, hw⟩ := (wf_alt_iff vs).mp hwf
      obtain ⟨h1, h2⟩ := flatten_alt_sound vs hne hw
      exact ⟨by rw [h1, denote_alt], h2⟩
    | CONCATENATION =>
      obtain ⟨hne, hw⟩ := (wf_concat_iff vs).mp hwf
      obtain ⟨h1, h2⟩ := flatten_concat_sound vs hne hw
      exact ⟨by rw [h1, denote_concat], h2⟩
    | KLEENE_STAR => rw [flatten_of_wrap _ (by simp) vs]; exact ⟨rfl, hwf⟩
    | KLEENE_PLUS => rw [flatten_of_wrap _ (by simp) vs]; exact ⟨rfl, hwf⟩
    | MAYBE => rw [flatten_of_wrap _ (by simp) vs]; exact ⟨rfl, hwf⟩

theorem altMergeAlt_sound (vs2 : List Regex) (hne2 : vs2 ≠ [])
    (hwf2 : ∀ x ∈ vs2, wfB x = true) :
    denote (flatten (altMerge (.ALTERNATION, vs2))) = sumD vs2 ∧
    wfB (flatten (altMerge (.ALTERNATION, vs2))) = true := by
  cases vs2 with
  | nil => exact absurd rfl hne2
  | cons x xs =>
    cases xs with
    | nil =>
      cases x with
      | STRING s =>
        have hm : flatten (altMerge (.ALTERNATION, [Regex.STRING s])) = .STRING s := rfl
        rw [hm]
        exact ⟨by rw [sumD_singleton], hwf2 _ (by simp)⟩
      | node t ws =>
        have hm : altMerge (.ALTERNATION, [Regex.node t ws]) = .node t ws := rfl
        rw [hm]
        obtain ⟨h1, h2⟩ := flatten_sound (.node t ws) (hwf2 _ (by simp))
        exact ⟨by rw [h1, sumD_singleton], h2⟩
    | cons y ys =>
      have hm : altMerge (.ALTERNATION, x :: y :: ys) =
          .node .ALTERNATION (x :: y :: ys) := by
        cases x <;> rfl
      rw [hm]
      exact flatten_alt_sound _ (by simp) hwf2

theorem altTail_sound (vs2 : List Regex) (hne2 : vs2 ≠ [])
    (hwf2 : ∀ x ∈ vs2, wfB x = true) :
    denote (flatten (altMerge (altMaybeStage (.ALTERNATION, vs2)))) = sumD vs2 ∧
    wfB (flatten (altMerge (altMaybeStage (.ALTERNATION, vs2)))) = true := by
  rcases hmi : pyIndex isMaybeNode vs2 with _ | mi
  · have hms : altMaybeStage (.ALTERNATION, vs2) = (.ALTERNATION, vs2) := by
      simp only [altMaybeStage]
      rw [hmi]
    rw [hms]
    exact altMergeAlt_sound vs2 hne2 hwf2
  · by_cases hlen : 1 < vs2.length
    · have hms : altMaybeStage (.ALTERNATION, vs2) =
          (.MAYBE, [.node .ALTERNATION (vs2.set mi (unwrapFirst (vs2.getD mi dflt)))]) := by
        simp only [altMaybeStage]
        rw [hmi]
        dsimp only
        rw [if_pos hlen]
      rw [hms]
      obtain ⟨hmlt, hpm⟩ := pyIndex_some _ vs2 mi hmi
      obtain ⟨ms, hmeq⟩ := maybe_of_isMaybeNode hpm
      have hmw : wfB (vs2.getD mi dflt) = true := hwf2 _ (getD_mem vs2 mi hmlt)
      rw [hmeq] at hmw
      obtain ⟨inner, hms1, hinnerwf⟩ := (wf_wrap_iff _ _ (by simp)).mp hmw
      subst hms1
      have hunwrap : unwrapFirst (vs2.getD mi dflt) = inner := by
        rw [hmeq]; rfl
      have hmg : altMerge (.MAYBE, [.node .ALTERNATION (vs2.set mi inner)]) =
          .node .MAYBE [.node .ALTERNATION (vs2.set mi inner)] := rfl
      rw [hunwrap, hmg, flatten_of_wrap .MAYBE (by simp)]
      have hsetne : vs2.set mi inner ≠ [] := by
        rw [← List.length_pos, List.length_set]
        omega
      have hsetwf : ∀ x ∈ vs2.set mi inner, wfB x = true := by
        intro x hx
        rcases List.mem_or_eq_of_mem_set hx with hx | rfl
        · exact hwf2 x hx
        · exact hinnerwf
      constructor
      · rw [denote_maybe, prodD_singleton, denote_alt,
          sumD_set_eraseIdx vs2 mi inner hmlt,
          sumD_eraseIdx vs2 mi hmlt, hmeq, denote_maybe, prodD_singleton,
          ← add_assoc]
      · rw [wf_wrap_iff _ _ (by simp)]
        exact ⟨_, rfl, (wf_alt_iff _).mpr ⟨hsetne, hsetwf⟩⟩
    · have hms : altMaybeStage (.ALTERNATION, vs2) = (.ALTERNATION, vs2) := by
        simp only [altMaybeStage]
        rw [hmi]
        dsimp only
        rw [if_neg hlen]
      rw [hms]
      exact altMergeAlt_sound vs2 hne2 hwf2

theorem altRules_sound (vs : List Regex) (hne : vs ≠ [])
    (hwf : ∀ x ∈ vs, wfB x = true) :
    denote (flatten (altRules vs)) = sumD vs ∧
    wfB (flatten (altRules vs)) = true := by
  have hwf1 : ∀ x ∈ pydedup vs, wfB x = true :=
    fun x hx => hwf x (pydedupGo_subset vs [] x hx)
  have hne1 : pydedup vs ≠ [] := pydedup_ne_nil vs hne
  have hsum1 : sumD (pydedup vs) = sumD vs := pydedup_sumD vs
  obtain ⟨hsum2, hsub2, hinv2⟩ :=
    removeAbsorbed_sound (pydedup vs)
      ((pydedup vs).filter (fun x => !isWrapNode x)) (pydedup vs)
      (by
        intro e he2
        have := List.of_mem_filter he2
        simpa using this)
      hwf1 (fun w hw _ => hw)
  set vs2 := removeAbsorbed (wrapContents (pydedup vs))
      ((pydedup vs).filter (fun x => !isWrapNode x)) (pydedup vs) with hvs2def
  have hwf2 : ∀ x ∈ vs2, wfB x = true := fun x hx => hwf1 x (hsub2 x hx)
  have hsum : sumD vs2 = sumD vs := by rw [hsum2, hsum1]
  have hne2 : vs2 ≠ [] := by
    by_cases hw : ∃ w ∈ pydedup vs, isWrapNode w = true
    · obtain ⟨w, hw1, hw2⟩ := hw
      exact List.ne_nil_of_mem (hinv2 w hw1 hw2)
    · push_neg at hw
      have hwc : wrapContents (pydedup vs) = [] := by
        apply wrapContents_eq_nil
        intro w hw1
        have := hw w hw1
        simpa using this
      rw [hvs2def, hwc, removeAbsorbed_nil_wrapping]
      exact hne1
  have hrules : altRules vs = altMerge (altMaybeStage (altEpsStage vs2)) := rfl
  rw [hrules, ← hsum]
  rcases hep : pyIndex isEpsilonString vs2 with _ | idx
  · have heps : altEpsStage vs2 = (.ALTERNATION, vs2) := by
      rw [altEpsStage, hep]
    rw [heps]
    exact altTail_sound vs2 hne2 hwf2
  · by_cases hlen : 1 < vs2.length
    · have heps : altEpsStage vs2 =
          (.MAYBE, [.node .ALTERNATION (vs2.eraseIdx idx)]) := by
        rw [altEpsStage, hep]
        dsimp only
        rw [if_pos hlen]
      rw [heps]
      obtain ⟨hidx, hpe⟩ := pyIndex_some _ vs2 idx hep
      have hgete : vs2.getD idx dflt = .STRING "ε" := eq_eps_of_isEpsilonString hpe
      have hms : altMaybeStage (.MAYBE, [.node .ALTERNATION (vs2.eraseIdx idx)]) =
          (.MAYBE, [.node .ALTERNATION (vs2.eraseIdx idx)]) := by
        simp only [altMaybeStage]
        simp [pyIndex, isMaybeNode]
      rw [hms]
      have hmg : altMerge (.MAYBE, [.node .ALTERNATION (vs2.eraseIdx idx)]) =
          .node .MAYBE [.node .ALTERNATION (vs2.eraseIdx idx)] := rfl
      rw [hmg, flatten_of_wrap .MAYBE (by simp)]
      have hrne : vs2.eraseIdx idx ≠ [] := by
        rw [← List.length_pos, List.length_eraseIdx, if_pos hidx]
        omega
      have hrwf : ∀ x ∈ vs2.eraseIdx idx, wfB x = true :=
        fun x hx => hwf2 x ((List.eraseIdx_sublist vs2 idx).subset hx)
      constructor
      · rw [denote_maybe, prodD_singleton, denote_alt,
          sumD_eraseIdx vs2 idx hidx, hgete, denote_eps]
      · rw [wf_wrap_iff _ _ (by simp)]
        exact ⟨_, rfl, (wf_alt_iff _).mpr ⟨hrne, hrwf⟩⟩
    · have heps : altEpsStage vs2 = (.ALTERNATION, vs2) := by
        rw [altEpsStage, hep]
        exact if_neg hlen
      rw [heps]
      exact altTail_sound vs2 hne2 hwf2

@[simp] theorem prodD_pair (a b : Regex) : prodD [a, b] = denote a * denote b := by
  simp [prodD]

theorem alt_of_isAltNode {x : Regex} (h : isAltNode x = true) :
    ∃ l, x = .node .ALTERNATION l := by
  cases x with
  | STRING s => simp [isAltNode] at h
  | node t vs =>
    cases t <;> simp [isAltNode] at h
    exact ⟨vs, rfl⟩

theorem erase_keeps (vs : List Regex) (j : Nat)
    (hwf : ∀ x ∈ vs, wfB x = true) :
    ∀ x ∈ vs.eraseIdx j, wfB x = true :=
  fun x hx => hwf x ((List.eraseIdx_sublist vs j).subset hx)

theorem erase_ne_nil (vs : List Regex) (j : Nat) (hj : j < vs.length)
    (h2 : 2 ≤ vs.length) : vs.eraseIdx j ≠ [] := by
  rw [← List.length_pos, List.length_eraseIdx, if_pos hj]
  omega

theorem scanPair_erase_i (vs : List Regex) (i : Nat) (hn : i + 1 < vs.length)
    (habs : denote (vs.getD i dflt) * denote (vs.getD (i + 1) dflt) =
      denote (vs.getD (i + 1) dflt)) :
    prodD (vs.eraseIdx i) = prodD vs := by
  rw [eraseIdx_shape_i vs i hn, prodD_append, prodD_cons]
  conv_rhs => rw [prodD_decomp2 vs i hn,
    ← mul_assoc (denote (vs.getD i dflt)) (denote (vs.getD (i + 1) dflt))
      (prodD (vs.drop (i + 2))), habs]

theorem scanPair_erase_succ (vs : List Regex) (i : Nat) (hn : i + 1 < vs.length)
    (habs : denote (vs.getD i dflt) * denote (vs.getD (i + 1) dflt) =
      denote (vs.getD i dflt)) :
    prodD (vs.eraseIdx (i + 1)) = prodD vs := by
  rw [eraseIdx_shape_succ vs i hn, prodD_append, prodD_cons]
  conv_rhs => rw [prodD_decomp2 vs i hn,
    ← mul_assoc (denote (vs.getD i dflt)) (denote (vs.getD (i + 1) dflt))
      (prodD (vs.drop (i + 2))), habs]

theorem scanPair_replace (vs : List Regex) (i : Nat) (x : Regex)
    (hn : i + 1 < vs.length)
    (hx : denote x = denote (vs.getD i dflt) * denote (vs.getD (i + 1) dflt)) :
    prodD (vs.take i ++ x :: vs.drop (i + 2)) = prodD vs := by
  rw [prodD_append, prodD_cons, hx, prodD_decomp2 vs i hn, mul_assoc]

theorem replace_wf (vs : List Regex) (i : Nat) (x : Regex)
    (hwf : ∀ y ∈ vs, wfB y = true) (hx : wfB x = true) :
    ∀ y ∈ vs.take i ++ x :: vs.drop (i + 2), wfB y = true := by
  intro y hy
  rcases List.mem_append.mp hy with hy | hy
  · exact hwf y (List.take_subset _ _ hy)
  · rcases List.mem_cons.mp hy with rfl | hy
    · exact hx
    · exact hwf y (List.drop_subset _ _ hy)

theorem wf_star_child {vs : List Regex} {i : Nat} {ls : List Regex}
    (hwf : ∀ x ∈ vs, wfB x = true) (hi : i < vs.length)
    (heq : vs.getD i dflt = .node .KLEENE_STAR ls) :
    ∃ c, ls = [c] ∧ wfB c = true := by
  have h := hwf _ (getD_mem vs i hi)
  rw [heq] at h
  exact (wf_wrap_iff _ _ (by simp)).mp h

theorem wf_maybe_child {vs : List Regex} {i : Nat} {ls : List Regex}
    (hwf : ∀ x ∈ vs, wfB x = true) (hi : i < vs.length)
    (heq : vs.getD i dflt = .node .MAYBE ls) :
    ∃ c, ls = [c] ∧ wfB c = true := by
  have h := hwf _ (getD_mem vs i hi)
  rw [heq] at h
  exact (wf_wrap_iff _ _ (by simp)).mp h

theorem stepA_sound (n : Nat) (vs : List Regex) (hn : n + 1 < vs.length)
    (hwf : ∀ x ∈ vs, wfB x = true) :
    prodD (stepA n vs) = prodD vs ∧ (∀ x ∈ stepA n vs, wfB x = true) ∧
    n < (stepA n vs).length := by
  have hlenrep : ∀ x : Regex,
      n < (vs.take n ++ x :: vs.drop (n + 2)).length := by
    intro x
    simp only [List.length_append, List.length_cons, List.length_take]
    omega
  simp only [stepA]
  split
  · next rs heqR =>
    split
    · next heq =>
      obtain ⟨c, rfl, hcwf⟩ := wf_star_child hwf (by omega) heqR
      simp only [List.headD_cons] at heq
      refine ⟨scanPair_replace vs n _ hn ?_, replace_wf vs n _ hwf ?_, hlenrep _⟩
      · rw [heq, heqR, denote_plus, denote_star, prodD_singleton]
      · rw [wf_wrap_iff _ _ (by simp)]
        exact ⟨c, rfl, hcwf⟩
    · split
      · next ls heqL =>
        split
        · next heq =>
          obtain ⟨c, rfl, hcwf⟩ := wf_star_child hwf (by omega) heqL
          simp only [List.headD_cons] at heq
          refine ⟨scanPair_replace vs n _ hn ?_, replace_wf vs n _ hwf ?_, hlenrep _⟩
          · rw [heq, heqL, denote_plus, denote_star, prodD_singleton,
              ← Language.mul_self_kstar_comm]
          · rw [wf_wrap_iff _ _ (by simp)]
            exact ⟨c, rfl, hcwf⟩
        · exact ⟨rfl, hwf, by omega⟩
      · exact ⟨rfl, hwf, by omega⟩
  · split
    · next ls heqL =>
      split
      · next heq =>
        obtain ⟨c, rfl, hcwf⟩ := wf_star_child hwf (by omega) heqL
        simp only [List.headD_cons] at heq
        refine ⟨scanPair_replace vs n _ hn ?_, replace_wf vs n _ hwf ?_, hlenrep _⟩
        · rw [heq, heqL, denote_plus, denote_star, prodD_singleton,
            ← Language.mul_self_kstar_comm]
        · rw [wf_wrap_iff _ _ (by simp)]
          exact ⟨c, rfl, hcwf⟩
      · exact ⟨rfl, hwf, by omega⟩
    · exact ⟨rfl, hwf, by omega⟩

theorem scanA_sound : ∀ (n : Nat) (vs : List Regex), n < vs.length →
    (∀ x ∈ vs, wfB x = true) →
    prodD (scanA n vs) = prodD vs ∧ (∀ x ∈ scanA n vs, wfB x = true) ∧
    scanA n vs ≠ [] := by
  intro n
  induction n with
  | zero =>
    intro vs h hwf
    refine ⟨rfl, hwf, ?_⟩
    show vs ≠ []
    rw [← List.length_pos]
    omega
  | succ n ih =>
    intro vs h hwf
    rw [scanA]
    obtain ⟨h1, h2, h3⟩ := stepA_sound n vs h hwf
    obtain ⟨g1, g2, g3⟩ := ih (stepA n vs) h3 h2
    exact ⟨g1.trans h1, g2, g3⟩

theorem sumD_map_concat_left (x : Regex) : ∀ (l : List Regex),
    sumD (l.map (fun e => .node .CONCATENATION [x, e])) = denote x * sumD l := by
  intro l
  induction l with
  | nil => simp
  | cons e es ih =>
    simp only [List.map_cons, sumD_cons, ih, denote_concat, prodD_pair, mul_add]

theorem sumD_map_concat_right (y : Regex) : ∀ (l : List Regex),
    sumD (l.map (fun e => .node .CONCATENATION [e, y])) = sumD l * denote y := by
  intro l
  induction l with
  | nil => simp
  | cons e es ih =>
    simp only [List.map_cons, sumD_cons, ih, denote_concat, prodD_pair, add_mul]

theorem scanB_sound : ∀ (b i : Nat) (vs : List Regex),
    (∀ x ∈ vs, wfB x = true) →
    prodD (scanB b i vs) = prodD vs ∧ (∀ x ∈ scanB b i vs, wfB x = true) ∧
    (vs ≠ [] → scanB b i vs ≠ []) := by
  intro b
  induction b with
  | zero => intro i vs hwf; exact ⟨rfl, hwf, fun h => h⟩
  | succ b ih =>
    intro i vs hwf
    rw [scanB]
    by_cases hg : i < vs.length - 1
    · rw [if_pos hg]
      have hn : i + 1 < vs.length := by omega
      have h2 : 2 ≤ vs.length := by omega
      split
      · next ls rs heqL heqR =>
        split
        · next hhead =>
          obtain ⟨c, rfl, hcwf⟩ := wf_maybe_child hwf (by omega) heqL
          obtain ⟨c2, rfl, hc2wf⟩ := wf_star_child hwf hn heqR
          simp only [List.headD_cons] at hhead
          subst hhead
          obtain ⟨g1, g2, g3⟩ := ih i _ (erase_keeps vs i hwf)
          refine ⟨?_, g2, fun _ => g3 (erase_ne_nil vs i (by omega) h2)⟩
          rw [g1]
          apply scanPair_erase_i vs i hn
          rw [heqL, heqR, denote_maybe, denote_star, prodD_singleton,
            lang_maybe_mul_kstar]
        · exact ih (i + 1) vs hwf
      · next ls rs heqL heqR =>
        split
        · next hhead =>
          obtain ⟨c, rfl, hcwf⟩ := wf_star_child hwf (by omega) heqL
          obtain ⟨c2, rfl, hc2wf⟩ := wf_maybe_child hwf hn heqR
          simp only [List.headD_cons] at hhead
          subst hhead
          obtain ⟨g1, g2, g3⟩ := ih i _ (erase_keeps vs (i + 1) hwf)
          refine ⟨?_, g2, fun _ => g3 (erase_ne_nil vs (i + 1) hn h2)⟩
          rw [g1]
          apply scanPair_erase_succ vs i hn
          rw [heqL, heqR, denote_star, denote_maybe, prodD_singleton,
            lang_kstar_mul_maybe]
        · exact ih (i + 1) vs hwf
      · exact ih (i + 1) vs hwf
    · rw [if_neg hg]
      exact ⟨rfl, hwf, fun h => h⟩

theorem scanC_sound : ∀ (b i : Nat) (vs : List Regex),
    (∀ x ∈ vs, wfB x = true) →
    prodD (scanC b i vs) = prodD vs ∧ (∀ x ∈ scanC b i vs, wfB x = true) ∧
    (vs ≠ [] → scanC b i vs ≠ []) := by
  intro b
  induction b with
  | zero => intro i vs hwf; exact ⟨rfl, hwf, fun h => h⟩
  | succ b ih =>
    intro i vs hwf
    rw [scanC]
    by_cases hg : i < vs.length - 1
    · rw [if_pos hg]
      have hn : i + 1 < vs.length := by omega
      have h2 : 2 ≤ vs.length := by omega
      split
      · next s1 s2 heqL heqR =>
        split
        · next hcond =>
          obtain ⟨he1, he2⟩ := hcond
          subst he1
          subst he2
          obtain ⟨g1, g2, g3⟩ := ih i _ (erase_keeps vs (i + 1) hwf)
          refine ⟨?_, g2, fun _ => g3 (erase_ne_nil vs (i + 1) hn h2)⟩
          rw [g1]
          apply scanPair_erase_succ vs i hn
          rw [heqL, heqR, denote_eps, one_mul]
        · exact ih (i + 1) vs hwf
      · next ls rs heqL heqR =>
        split
        · next hhead =>
          obtain ⟨c, rfl, hcwf⟩ := wf_star_child hwf (by omega) heqL
          obtain ⟨c2, rfl, hc2wf⟩ := wf_star_child hwf hn heqR
          simp only [List.headD_cons] at hhead
          subst hhead
          obtain ⟨g1, g2, g3⟩ := ih i _ (erase_keeps vs (i + 1) hwf)
          refine ⟨?_, g2, fun _ => g3 (erase_ne_nil vs (i + 1) hn h2)⟩
          rw [g1]
          apply scanPair_erase_succ vs i hn
          rw [heqL, heqR, denote_star, kstar_mul_kstar]
        · exact ih (i + 1) vs hwf
      · exact ih (i + 1) vs hwf
    · rw [if_neg hg]
      exact ⟨rfl, hwf, fun h => h⟩

theorem scanD_sound : ∀ (b i : Nat) (vs : List Regex),
    (∀ x ∈ vs, wfB x = true) →
    prodD (scanD b i vs) = prodD vs ∧ (∀ x ∈ scanD b i vs, wfB x = true) ∧
    (vs ≠ [] → scanD b i vs ≠ []) := by
  intro b
  induction b with
  | zero => intro i vs hwf; exact ⟨rfl, hwf, fun h => h⟩
  | succ b ih =>
    intro i vs hwf
    rw [scanD]
    by_cases hg : i < vs.length - 1
    · rw [if_pos hg]
      have hn : i + 1 < vs.length := by omega
      have h2 : 2 ≤ vs.length := by omega
      by_cases he1 : isEpsilonString (vs.getD i dflt) = true
      · rw [if_pos he1]
        obtain ⟨g1, g2, g3⟩ := ih i _ (erase_keeps vs i hwf)
        refine ⟨?_, g2, fun _ => g3 (erase_ne_nil vs i (by omega) h2)⟩
        rw [g1]
        apply scanPair_erase_i vs i hn
        rw [eq_eps_of_isEpsilonString he1, denote_eps, one_mul]
      · rw [if_neg he1]
        by_cases he2 : isEpsilonString (vs.getD (i + 1) dflt) = true
        · rw [if_pos he2]
          obtain ⟨g1, g2, g3⟩ := ih i _ (erase_keeps vs (i + 1) hwf)
          refine ⟨?_, g2, fun _ => g3 (erase_ne_nil vs (i + 1) hn h2)⟩
          rw [g1]
          apply scanPair_erase_succ vs i hn
          rw [eq_eps_of_isEpsilonString he2, denote_eps, mul_one]
        · rw [if_neg he2]
          exact ih (i + 1) vs hwf
    · rw [if_neg hg]
      exact ⟨rfl, hwf, fun h => h⟩

theorem scanE_sound : ∀ (b i : Nat) (vs : List Regex),
    (∀ x ∈ vs, wfB x = true) →
    prodD (scanE b i vs) = prodD vs ∧ (∀ x ∈ scanE b i vs, wfB x = true) ∧
    (vs ≠ [] → scanE b i vs ≠ []) := by
  intro b
  induction b with
  | zero => intro i vs hwf; exact ⟨rfl, hwf, fun h => h⟩
  | succ b ih =>
    intro i vs hwf
    rw [scanE]
    by_cases hg : i < vs.length - 1
    · rw [if_pos hg]
      have hn : i + 1 < vs.length := by omega
      by_cases hc1 : (isAltNode (vs.getD (i + 1) dflt) &&
          !isWrapNode (vs.getD i dflt)) = true
      · rw [if_pos hc1]
        have hc1b := hc1
        simp only [Bool.and_eq_true] at hc1b
        obtain ⟨ha, _⟩ := hc1b
        obtain ⟨rvs, heqR⟩ := alt_of_isAltNode ha
        have hRwf : wfB (vs.getD (i + 1) dflt) = true := hwf _ (getD_mem vs _ hn)
        rw [heqR] at hRwf
        obtain ⟨hrne, hrwf⟩ := (wf_alt_iff rvs).mp hRwf
        have hLwf : wfB (vs.getD i dflt) = true := hwf _ (getD_mem vs _ (by omega))
        have hxwf : wfB (.node .ALTERNATION ((altChildren (vs.getD (i + 1) dflt)).map
            (fun e => .node .CONCATENATION [vs.getD i dflt, e]))) = true := by
          rw [wf_alt_iff]
          constructor
          · rw [heqR]
            simpa [altChildren] using hrne
          · intro x hx
            rw [heqR] at hx
            simp only [altChildren] at hx
            obtain ⟨e, he, rfl⟩ := List.mem_map.mp hx
            rw [wf_concat_iff]
            refine ⟨by simp, ?_⟩
            intro y hy
            rcases List.mem_cons.mp hy with rfl | hy
            · exact hLwf
            · rcases List.mem_cons.mp hy with rfl | hy
              · exact hrwf _ he
              · cases hy
        obtain ⟨g1, g2, g3⟩ := ih i _ (replace_wf vs i _ hwf hxwf)
        refine ⟨?_, g2, fun _ => g3 (by simp)⟩
        rw [g1]
        apply scanPair_replace vs i _ hn
        rw [denote_alt, heqR, altChildren, sumD_map_concat_left, denote_alt]
      · rw [if_neg hc1]
        by_cases hc2 : (isAltNode (vs.getD i dflt) &&
            !isWrapNode (vs.getD (i + 1) dflt)) = true
        · rw [if_pos hc2]
          have hc2b := hc2
          simp only [Bool.and_eq_true] at hc2b
          obtain ⟨ha, _⟩ := hc2b
          obtain ⟨lvs, heqL⟩ := alt_of_isAltNode ha
          have hLwf : wfB (vs.getD i dflt) = true := hwf _ (getD_mem vs _ (by omega))
          rw [heqL] at hLwf
          obtain ⟨hlne, hlwf⟩ := (wf_alt_iff lvs).mp hLwf
          have hRwf : wfB (vs.getD (i + 1) dflt) = true := hwf _ (getD_mem vs _ hn)
          have hxwf : wfB (.node .ALTERNATION ((altChildren (vs.getD i dflt)).map
              (fun e => .node .CONCATENATION [e, vs.getD (i + 1) dflt]))) = true := by
            rw [wf_alt_iff]
            constructor
            · rw [heqL]
              simpa [altChildren] using hlne
            · intro x hx
              rw [heqL] at hx
              simp only [altChildren] at hx
              obtain ⟨e, he, rfl⟩ := List.mem_map.mp hx
              rw [wf_concat_iff]
              refine ⟨by simp, ?_⟩
              intro y hy
              rcases List.mem_cons.mp hy with rfl | hy
              · exact hlwf _ he
              · rcases List.mem_cons.mp hy with rfl | hy
                · exact hRwf
                · cases hy
          obtain ⟨g1, g2, g3⟩ := ih i _ (replace_wf vs i _ hwf hxwf)
          refine ⟨?_, g2, fun _ => g3 (by simp)⟩
          rw [g1]
          apply scanPair_replace vs i _ hn
          rw [denote_alt, heqL, altChildren, sumD_map_concat_right, denote_alt]
        · rw [if_neg hc2]
          exact ih (i + 1) vs hwf
    · rw [if_neg hg]
      exact ⟨rfl, hwf, fun h => h⟩

theorem concatMerge_sound (l : List Regex) (hne : l ≠ [])
    (hwf : ∀ x ∈ l, wfB x = true) :
    denote (flatten (concatMerge l)) = prodD l ∧
    wfB (flatten (concatMerge l)) = true := by
  cases l with
  | nil => exact absurd rfl hne
  | cons x xs =>
    cases xs with
    | nil =>
      cases x with
      | STRING s =>
        have hm : flatten (concatMerge [Regex.STRING s]) = .STRING s := rfl
        rw [hm]
        exact ⟨by rw [prodD_singleton], hwf _ (by simp)⟩
      | node t ws =>
        have hm : concatMerge [Regex.node t ws] = .node t ws := rfl
        rw [hm]
        obtain ⟨h1, h2⟩ := flatten_sound (.node t ws) (hwf _ (by simp))
        exact ⟨by rw [h1, prodD_singleton], h2⟩
    | cons y ys =>
      have hm : concatMerge (x :: y :: ys) = .node .CONCATENATION (x :: y :: ys) := by
        cases x <;> rfl
      rw [hm]
      exact flatten_concat_sound _ (by simp) hwf

theorem concatRules_sound (vs : List Regex) (hne : vs ≠ [])
    (hwf : ∀ x ∈ vs, wfB x = true) :
    denote (flatten (concatRules vs)) = prodD vs ∧
    wfB (flatten (concatRules vs)) = true := by
  have hstep : ∀ (l : List Regex) (P : Language Char),
      (prodD l = P ∧ (∀ x ∈ l, wfB x = true) ∧ l ≠ []) →
      ∀ (f : List Regex → List Regex),
      (∀ m, (∀ x ∈ m, wfB x = true) →
        prodD (f m) = prodD m ∧ (∀ x ∈ f m, wfB x = true) ∧ (m ≠ [] → f m ≠ [])) →
      (prodD (f l) = P ∧ (∀ x ∈ f l, wfB x = true) ∧ f l ≠ []) := by
    rintro l P ⟨h1, h2, h3⟩ f hf
    obtain ⟨g1, g2, g3⟩ := hf l h2
    exact ⟨g1.trans h1, g2, g3 h3⟩
  have hfA : ∀ m : List Regex, (∀ x ∈ m, wfB x = true) →
      prodD (scanA (m.length - 1) m) = prodD m ∧
      (∀ x ∈ scanA (m.length - 1) m, wfB x = true) ∧
      (m ≠ [] → scanA (m.length - 1) m ≠ []) := by
    intro m hm
    by_cases hme : m = []
    · subst hme
      exact ⟨rfl, hm, fun h => absurd rfl h⟩
    · have h := scanA_sound (m.length - 1) m
        (by have := List.length_pos.mpr hme; omega) hm
      exact ⟨h.1, h.2.1, fun _ => h.2.2⟩
  have hfB : ∀ m : List Regex, (∀ x ∈ m, wfB x = true) →
      prodD (scanB (m.length + 1) 0 m) = prodD m ∧
      (∀ x ∈ scanB (m.length + 1) 0 m, wfB x = true) ∧
      (m ≠ [] → scanB (m.length + 1) 0 m ≠ []) :=
    fun m hm => scanB_sound (m.length + 1) 0 m hm
  have hfC : ∀ m : List Regex, (∀ x ∈ m, wfB x = true) →
      prodD (scanC (m.length + 1) 0 m) = prodD m ∧
      (∀ x ∈ scanC (m.length + 1) 0 m, wfB x = true) ∧
      (m ≠ [] → scanC (m.length + 1) 0 m ≠ []) :=
    fun m hm => scanC_sound (m.length + 1) 0 m hm
  have hfD : ∀ m : List Regex, (∀ x ∈ m, wfB x = true) →
      prodD (scanD (m.length + 1) 0 m) = prodD m ∧
      (∀ x ∈ scanD (m.length + 1) 0 m, wfB x = true) ∧
      (m ≠ [] → scanD (m.length + 1) 0 m ≠ []) :=
    fun m hm => scanD_sound (m.length + 1) 0 m hm
  have hfE : ∀ m : List Regex, (∀ x ∈ m, wfB x = true) →
      prodD (scanE (m.length + 1) 0 m) = prodD m ∧
      (∀ x ∈ scanE (m.length + 1) 0 m, wfB x = true) ∧
      (m ≠ [] → scanE (m.length + 1) 0 m ≠ []) :=
    fun m hm => scanE_sound (m.length + 1) 0 m hm
  have s0 : prodD vs = prodD vs ∧ (∀ x ∈ vs, wfB x = true) ∧ vs ≠ [] :=
    ⟨rfl, hwf, hne⟩
  have s1 := hstep vs (prodD vs) s0 (fun m => scanA (m.length - 1) m) hfA
  have s2 := hstep _ (prodD vs) s1 (fun m => scanB (m.length + 1) 0 m) hfB
  have s3 := hstep _ (prodD vs) s2 (fun m => scanC (m.length + 1) 0 m) hfC
  have s4 := hstep _ (prodD vs) s3 (fun m => scanD (m.length + 1) 0 m) hfD
  have s5 := hstep _ (prodD vs) s4 (fun m => scanE (m.length + 1) 0 m) hfE
  obtain ⟨p1, p2, p3⟩ := s5
  obtain ⟨m1, m2⟩ := concatMerge_sound _ p3 p2
  exact ⟨m1.trans p1, m2⟩

theorem lang_one_add_kstar (a : Language Char) : 1 + a∗ = a∗ :=
  lang_add_absorb one_le_kstar

theorem wf_star_singleton (c : Regex) (hc : wfB c = true) :
    wfB (.node .KLEENE_STAR [c]) = true :=
  (wf_wrap_iff _ _ (by simp)).mpr ⟨c, rfl, hc⟩

theorem wf_plus_singleton (c : Regex) (hc : wfB c = true) :
    wfB (.node .KLEENE_PLUS [c]) = true :=
  (wf_wrap_iff _ _ (by simp)).mpr ⟨c, rfl, hc⟩

theorem wf_maybe_singleton (c : Regex) (hc : wfB c = true) :
    wfB (.node .MAYBE [c]) = true :=
  (wf_wrap_iff _ _ (by simp)).mpr ⟨c, rfl, hc⟩

theorem starRules_sound (c : Regex) (hwf : wfB c = true) :
    denote (flatten (starRules [c])) = (prodD [c])∗ ∧
    wfB (flatten (starRules [c])) = true := by
  rw [prodD_singleton]
  cases c with
  | STRING s =>
    by_cases hs : s = "ε"
    · subst hs
      have hm : flatten (starRules [Regex.STRING "ε"]) = .STRING "ε" := rfl
      rw [hm]
      exact ⟨by rw [denote_eps, kstar_one], by decide⟩
    · have hm : starRules [Regex.STRING s] = .node .KLEENE_STAR [.STRING s] := by
        simp [starRules, hs]
      rw [hm, flatten_of_wrap _ (by simp)]
      exact ⟨by rw [denote_star, prodD_singleton], wf_star_singleton _ hwf⟩
  | node t ws =>
    cases t with
    | ALTERNATION =>
      obtain ⟨hne, hws⟩ := (wf_alt_iff ws).mp hwf
      rcases hep : pyIndex isEpsilonString ws with _ | idx
      · have hm : starRules [Regex.node .ALTERNATION ws] =
            .node .KLEENE_STAR [.node .ALTERNATION ws] := by
          simp only [starRules]
          rw [hep]
        rw [hm, flatten_of_wrap _ (by simp)]
        exact ⟨by rw [denote_star, prodD_singleton], wf_star_singleton _ hwf⟩
      · obtain ⟨hidx, hpe⟩ := pyIndex_some _ ws idx hep
        have hgete : ws.getD idx dflt = .STRING "ε" := eq_eps_of_isEpsilonString hpe
        by_cases hlen : 1 < ws.length
        · have harm : (match pyIndex isEpsilonString ws with
              | some idx => if 1 < ws.length then ws.eraseIdx idx else ws
              | none => ws) = ws.eraseIdx idx := by
            rw [hep]
            exact if_pos hlen
          have hm : starRules [Regex.node .ALTERNATION ws] =
              .node .KLEENE_STAR [.node .ALTERNATION (ws.eraseIdx idx)] := by
            simp only [starRules]
            rw [harm]
          rw [hm, flatten_of_wrap _ (by simp)]
          constructor
          · rw [denote_star, prodD_singleton, denote_alt, denote_alt,
              sumD_eraseIdx ws idx hidx, hgete, denote_eps, lang_maybe_kstar]
          · apply wf_star_singleton
            rw [wf_alt_iff]
            exact ⟨erase_ne_nil ws idx hidx (by omega),
              erase_keeps ws idx hws⟩
        · have harm : (match pyIndex isEpsilonString ws with
              | some idx => if 1 < ws.length then ws.eraseIdx idx else ws
              | none => ws) = ws := by
            rw [hep]
            exact if_neg hlen
          have hm : starRules [Regex.node .ALTERNATION ws] =
              .node .KLEENE_STAR [.node .ALTERNATION ws] := by
            simp only [starRules]
            rw [harm]
          rw [hm, flatten_of_wrap _ (by simp)]
          exact ⟨by rw [denote_star, prodD_singleton], wf_star_singleton _ hwf⟩
    | CONCATENATION =>
      have hm : starRules [Regex.node .CONCATENATION ws] =
          .node .KLEENE_STAR [.node .CONCATENATION ws] := rfl
      rw [hm, flatten_of_wrap _ (by simp)]
      exact ⟨by rw [denote_star, prodD_singleton], wf_star_singleton _ hwf⟩
    | KLEENE_STAR =>
      obtain ⟨c2, rfl, hc2⟩ := (wf_wrap_iff _ _ (by simp)).mp hwf
      have hm : starRules [Regex.node .KLEENE_STAR [c2]] =
          .node .KLEENE_STAR [c2] := rfl
      rw [hm, flatten_of_wrap _ (by simp), denote_star, prodD_singleton,
        kstar_idem]
      exact ⟨rfl, wf_star_singleton _ hc2⟩
    | KLEENE_PLUS =>
      obtain ⟨c2, rfl, hc2⟩ := (wf_wrap_iff _ _ (by simp)).mp hwf
      have hm : starRules [Regex.node .KLEENE_PLUS [c2]] =
          .node .KLEENE_STAR [c2] := rfl
      rw [hm, flatten_of_wrap _ (by simp), denote_star, prodD_singleton,
        denote_plus, prodD_singleton, lang_plus_kstar]
      exact ⟨rfl, wf_star_singleton _ hc2⟩
    | MAYBE =>
      obtain ⟨c2, rfl, hc2⟩ := (wf_wrap_iff _ _ (by simp)).mp hwf
      have hm : starRules [Regex.node .MAYBE [c2]] =
          .node .KLEENE_STAR [c2] := rfl
      rw [hm, flatten_of_wrap _ (by simp), denote_star, prodD_singleton,
        denote_maybe, prodD_singleton, lang_maybe_kstar]
      exact ⟨rfl, wf_star_singleton _ hc2⟩

theorem plusRules_sound (c : Regex) (hwf : wfB c = true) :
    denote (flatten (plusRules [c])) = prodD [c] * (prodD [c])∗ ∧
    wfB (flatten (plusRules [c])) = true := by
  rw [prodD_singleton]
  cases c with
  | STRING s =>
    by_cases hs : s = "ε"
    · subst hs
      have hm : flatten (plusRules [Regex.STRING "ε"]) = .STRING "ε" := rfl
      rw [hm, denote_eps, kstar_one, mul_one]
      exact ⟨rfl, by decide⟩
    · have hm : plusRules [Regex.STRING s] = .node .KLEENE_PLUS [.STRING s] := by
        simp [plusRules, hs]
      rw [hm, flatten_of_wrap _ (by simp)]
      exact ⟨by rw [denote_plus, prodD_singleton], wf_plus_singleton _ hwf⟩
  | node t ws =>
    cases t with
    | ALTERNATION =>
      have hm : plusRules [Regex.node .ALTERNATION ws] =
          .node .KLEENE_PLUS [.node .ALTERNATION ws] := rfl
      rw [hm, flatten_of_wrap _ (by simp)]
      exact ⟨by rw [denote_plus, prodD_singleton], wf_plus_singleton _ hwf⟩
    | CONCATENATION =>
      have hm : plusRules [Regex.node .CONCATENATION ws] =
          .node .KLEENE_PLUS [.node .CONCATENATION ws] := rfl
      rw [hm, flatten_of_wrap _ (by simp)]
      exact ⟨by rw [denote_plus, prodD_singleton], wf_plus_singleton _ hwf⟩
    | KLEENE_STAR =>
      obtain ⟨c2, rfl, hc2⟩ := (wf_wrap_iff _ _ (by simp)).mp hwf
      cases c2 with
      | STRING s2 =>
        have hm : plusRules [Regex.node .KLEENE_STAR [.STRING s2]] =
            .node .KLEENE_STAR [.STRING s2] := rfl
        rw [hm, flatten_of_wrap _ (by simp)]
        refine ⟨?_, wf_star_singleton _ hc2⟩
        simp only [denote_star, prodD_singleton]
        rw [kstar_idem, kstar_mul_kstar]
      | node t2 ws2 =>
        cases t2 with
        | KLEENE_PLUS =>
          obtain ⟨d, rfl, hd⟩ := (wf_wrap_iff _ _ (by simp)).mp hc2
          have hm : plusRules [Regex.node .KLEENE_STAR
              [.node .KLEENE_PLUS [d]]] = .node .KLEENE_STAR [d] := rfl
          rw [hm, flatten_of_wrap _ (by simp)]
          refine ⟨?_, wf_star_singleton _ hd⟩
          simp only [denote_star, denote_plus, prodD_singleton]
          rw [lang_plus_kstar, kstar_idem, kstar_mul_kstar]
        | ALTERNATION =>
          have hm : plusRules [Regex.node .KLEENE_STAR
              [.node .ALTERNATION ws2]] =
              .node .KLEENE_STAR [.node .ALTERNATION ws2] := rfl
          rw [hm, flatten_of_wrap _ (by simp)]
          refine ⟨?_, wf_star_singleton _ hc2⟩
          simp only [denote_star, prodD_singleton]
          rw [kstar_idem, kstar_mul_kstar]
        | CONCATENATION =>
          have hm : plusRules [Regex.node .KLEENE_STAR
              [.node .CONCATENATION ws2]] =
              .node .KLEENE_STAR [.node .CONCATENATION ws2] := rfl
          rw [hm, flatten_of_wrap _ (by simp)]
          refine ⟨?_, wf_star_singleton _ hc2⟩
          simp only [denote_star, prodD_singleton]
          rw [kstar_idem, kstar_mul_kstar]
        | KLEENE_STAR =>
          have hm : plusRules [Regex.node .KLEENE_STAR
              [.node .KLEENE_STAR ws2]] =
              .node .KLEENE_STAR [.node .KLEENE_STAR ws2] := rfl
          rw [hm, flatten_of_wrap _ (by simp)]
          refine ⟨?_, wf_star_singleton _ hc2⟩
          simp only [denote_star, prodD_singleton, kstar_idem]
          rw [kstar_mul_kstar]
        | MAYBE =>
          have hm : plusRules [Regex.node .KLEENE_STAR
              [.node .MAYBE ws2]] =
              .node .KLEENE_STAR [.node .MAYBE ws2] := rfl
          rw [hm, flatten_of_wrap _ (by simp)]
          refine ⟨?_, wf_star_singleton _ hc2⟩
          simp only [denote_star, prodD_singleton]
          rw [kstar_idem, kstar_mul_kstar]
    | KLEENE_PLUS =>
      obtain ⟨c2, rfl, hc2⟩ := (wf_wrap_iff _ _ (by simp)).mp hwf
      have hm : plusRules [Regex.node .KLEENE_PLUS [c2]] =
          .node .KLEENE_PLUS [c2] := rfl
      rw [hm, flatten_of_wrap _ (by simp)]
      refine ⟨?_, wf_plus_singleton _ hc2⟩
      simp only [denote_plus, prodD_singleton]
      rw [lang_plus_kstar, mul_assoc, kstar_mul_kstar]
    | MAYBE =>
      obtain ⟨c2, rfl, hc2⟩ := (wf_wrap_iff _ _ (by simp)).mp hwf
      cases c2 with
      | STRING s2 =>
        have hm : plusRules [Regex.node .MAYBE [.STRING s2]] =
            .node .KLEENE_STAR [.STRING s2] := rfl
        rw [hm, flatten_of_wrap _ (by simp)]
        refine ⟨?_, wf_star_singleton _ hc2⟩
        simp only [denote_star, denote_maybe, prodD_singleton]
        rw [lang_maybe_kstar, lang_maybe_mul_kstar]
      | node t2 ws2 =>
        cases t2 with
        | KLEENE_PLUS =>
          obtain ⟨d, rfl, hd⟩ := (wf_wrap_iff _ _ (by simp)).mp hc2
          have hm : plusRules [Regex.node .MAYBE
              [.node .KLEENE_PLUS [d]]] = .node .KLEENE_STAR [d] := rfl
          rw [hm, flatten_of_wrap _ (by simp)]
          refine ⟨?_, wf_star_singleton _ hd⟩
          simp only [denote_star, denote_maybe, denote_plus, prodD_singleton]
          rw [lang_maybe_kstar, lang_maybe_mul_kstar, lang_plus_kstar]
        | ALTERNATION =>
          have hm : plusRules [Regex.node .MAYBE
              [.node .ALTERNATION ws2]] =
              .node .KLEENE_STAR [.node .ALTERNATION ws2] := rfl
          rw [hm, flatten_of_wrap _ (by simp)]
          refine ⟨?_, wf_star_singleton _ hc2⟩
          simp only [denote_star, denote_maybe, prodD_singleton]
          rw [lang_maybe_kstar, lang_maybe_mul_kstar]
        | CONCATENATION =>
          have hm : plusRules [Regex.node .MAYBE
              [.node .CONCATENATION ws2]] =
              .node .KLEENE_STAR [.node .CONCATENATION ws2] := rfl
          rw [hm, flatten_of_wrap _ (by simp)]
          refine ⟨?_, wf_star_singleton _ hc2⟩
          simp only [denote_star, denote_maybe, prodD_singleton]
          rw [lang_maybe_kstar, lang_maybe_mul_kstar]
        | KLEENE_STAR =>
          have hm : plusRules [Regex.node .MAYBE
              [.node .KLEENE_STAR ws2]] =
              .node .KLEENE_STAR [.node .KLEENE_STAR ws2] := rfl
          rw [hm, flatten_of_wrap _ (by simp)]
          refine ⟨?_, wf_star_singleton _ hc2⟩
          simp only [denote_star, denote_maybe, prodD_singleton]
          rw [lang_maybe_kstar, lang_maybe_mul_kstar]
        | MAYBE =>
          have hm : plusRules [Regex.node .MAYBE
              [.node .MAYBE ws2]] =
              .node .KLEENE_STAR [.node .MAYBE ws2] := rfl
          rw [hm, flatten_of_wrap _ (by simp)]
          refine ⟨?_, wf_star_singleton _ hc2⟩
          simp only [denote_star, denote_maybe, prodD_singleton]
          rw [lang_maybe_kstar (1 + prodD ws2),
            lang_maybe_mul_kstar (1 + prodD ws2)]

theorem maybeRules_sound (c : Regex) (hwf : wfB c = true) :
    denote (flatten (maybeRules [c])) = 1 + prodD [c] ∧
    wfB (flatten (maybeRules [c])) = true := by
  rw [prodD_singleton]
  have h11 : (1 : Language Char) + 1 = 1 := lang_add_absorb (le_refl 1)
  cases c with
  | STRING s =>
    by_cases hs : s = "ε"
    · subst hs
      have hm : flatten (maybeRules [Regex.STRING "ε"]) = .STRING "ε" := rfl
      rw [hm, denote_eps, h11]
      exact ⟨rfl, by decide⟩
    · have hm : maybeRules [Regex.STRING s] = .node .MAYBE [.STRING s] := by
        simp [maybeRules, hs]
      rw [hm, flatten_of_wrap _ (by simp)]
      exact ⟨by rw [denote_maybe, prodD_singleton], wf_maybe_singleton _ hwf⟩
  | node t ws =>
    cases t with
    | ALTERNATION =>
      have hm : maybeRules [Regex.node .ALTERNATION ws] =
          .node .MAYBE [.node .ALTERNATION ws] := rfl
      rw [hm, flatten_of_wrap _ (by simp)]
      exact ⟨by rw [denote_maybe, prodD_singleton], wf_maybe_singleton _ hwf⟩
    | CONCATENATION =>
      have hm : maybeRules [Regex.node .CONCATENATION ws] =
          .node .MAYBE [.node .CONCATENATION ws] := rfl
      rw [hm, flatten_of_wrap _ (by simp)]
      exact ⟨by rw [denote_maybe, prodD_singleton], wf_maybe_singleton _ hwf⟩
    | KLEENE_PLUS =>
      have hm : maybeRules [Regex.node .KLEENE_PLUS ws] =
          .node .MAYBE [.node .KLEENE_PLUS ws] := rfl
      rw [hm, flatten_of_wrap _ (by simp)]
      exact ⟨by rw [denote_maybe, prodD_singleton], wf_maybe_singleton _ hwf⟩
    | MAYBE =>
      obtain ⟨c2, rfl, hc2⟩ := (wf_wrap_iff _ _ (by simp)).mp hwf
      have hm : maybeRules [Regex.node .MAYBE [c2]] =
          .node .MAYBE [c2] := rfl
      rw [hm, flatten_of_wrap _ (by simp)]
      refine ⟨?_, wf_maybe_singleton _ hc2⟩
      simp only [denote_maybe, prodD_singleton]
      rw [← add_assoc, h11]
    | KLEENE_STAR =>
      obtain ⟨c2, rfl, hc2⟩ := (wf_wrap_iff _ _ (by simp)).mp hwf
      cases c2 with
      | STRING s2 =>
        have hm : maybeRules [Regex.node .KLEENE_STAR [.STRING s2]] =
            .node .KLEENE_STAR [.STRING s2] := rfl
        rw [hm, flatten_of_wrap _ (by simp)]
        refine ⟨?_, wf_star_singleton _ hc2⟩
        simp only [denote_star, prodD_singleton]
        rw [lang_one_add_kstar]
      | node t2 ws2 =>
        cases t2 with
        | MAYBE =>
          obtain ⟨d, rfl, hd⟩ := (wf_wrap_iff _ _ (by simp)).mp hc2
          have hm : maybeRules [Regex.node .KLEENE_STAR
              [.node .MAYBE [d]]] = .node .KLEENE_STAR [d] := rfl
          rw [hm, flatten_of_wrap _ (by simp)]
          refine ⟨?_, wf_star_singleton _ hd⟩
          simp only [denote_star, denote_maybe, prodD_singleton]
          rw [lang_maybe_kstar, lang_one_add_kstar]
        | ALTERNATION =>
          have hm : maybeRules [Regex.node .KLEENE_STAR
              [.node .ALTERNATION ws2]] =
              .node .KLEENE_STAR [.node .ALTERNATION ws2] := rfl
          rw [hm, flatten_of_wrap _ (by simp)]
          refine ⟨?_, wf_star_singleton _ hc2⟩
          simp only [denote_star, prodD_singleton]
          rw [lang_one_add_kstar]
        | CONCATENATION =>
          have hm : maybeRules [Regex.node .KLEENE_STAR
              [.node .CONCATENATION ws2]] =
              .node .KLEENE_STAR [.node .CONCATENATION ws2] := rfl
          rw [hm, flatten_of_wrap _ (by simp)]
          refine ⟨?_, wf_star_singleton _ hc2⟩
          simp only [denote_star, prodD_singleton]
          rw [lang_one_add_kstar]
        | KLEENE_STAR =>
          have hm : maybeRules [Regex.node .KLEENE_STAR
              [.node .KLEENE_STAR ws2]] =
              .node .KLEENE_STAR [.node .KLEENE_STAR ws2] := rfl
          rw [hm, flatten_of_wrap _ (by simp)]
          refine ⟨?_, wf_star_singleton _ hc2⟩
          simp only [denote_star, prodD_singleton]
          rw [lang_one_add_kstar]
        | KLEENE_PLUS =>
          have hm : maybeRules [Regex.node .KLEENE_STAR
              [.node .KLEENE_PLUS ws2]] =
              .node .KLEENE_STAR [.node .KLEENE_PLUS ws2] := rfl
          rw [hm, flatten_of_wrap _ (by simp)]
          refine ⟨?_, wf_star_singleton _ hc2⟩
          simp only [denote_star, prodD_singleton]
          rw [lang_one_add_kstar]

theorem nodeCount_pos (r : Regex) : 1 ≤ nodeCount r := by
  cases r with
  | STRING s => exact le_refl 1
  | node t vs =>
    have h : nodeCount (.node t vs) = 1 + nodeCountL vs := rfl
    omega

theorem wf_node_parts (t : RTag) (vs : List Regex)
    (h : wfB (.node t vs) = true) : wfL vs = true := by
  cases t <;>
    (simp only [wfB, Bool.and_eq_true] at h
     exact h.2)

theorem simplify_sound_aux (n : Nat) :
    (∀ r : Regex, nodeCount r ≤ n → wfB r = true →
      denote (simplify_step r) = denote r ∧ wfB (simplify_step r) = true) ∧
    (∀ l : List Regex, nodeCountL l ≤ n → wfL l = true →
      denoteL (simplify_list l) = denoteL l ∧ wfL (simplify_list l) = true ∧
      (simplify_list l).length = l.length) := by
  induction n with
  | zero =>
    constructor
    · intro r hr _
      exact absurd hr (by have := nodeCount_pos r; omega)
    · intro l hl _
      cases l with
      | nil => exact ⟨rfl, rfl, rfl⟩
      | cons x xs =>
        refine absurd hl ?_
        have h1 : nodeCountL (x :: xs) = nodeCount x + nodeCountL xs := rfl
        have h2 := nodeCount_pos x
        omega
  | succ n ih =>
    have hstep : ∀ r : Regex, nodeCount r ≤ n + 1 → wfB r = true →
        denote (simplify_step r) = denote r ∧ wfB (simplify_step r) = true := by
      intro r hr hwf
      cases r with
      | STRING s => exact ⟨rfl, hwf⟩
      | node t vs0 =>
        have hc : nodeCountL vs0 ≤ n := by
          have h1 : nodeCount (Regex.node t vs0) = 1 + nodeCountL vs0 := rfl
          omega
        have hwl : wfL vs0 = true := wf_node_parts t vs0 hwf
        obtain ⟨hden, hwfl2, hlen⟩ := ih.2 vs0 hc hwl
        have hwfall : ∀ x ∈ simplify_list vs0, wfB x = true :=
          (wfL_iff _).mp hwfl2
        have hsum : sumD (simplify_list vs0) = sumD vs0 := by
          simp only [sumD, ← denoteL_eq_map, hden]
        have hprod : prodD (simplify_list vs0) = prodD vs0 := by
          simp only [prodD, ← denoteL_eq_map, hden]
        cases t with
        | ALTERNATION =>
          have hm : simplify_step (Regex.node .ALTERNATION vs0) =
              (if (simplify_list vs0).length = 1
               then (simplify_list vs0).headD dflt
               else flatten (altRules (simplify_list vs0))) := rfl
          by_cases h1 : (simplify_list vs0).length = 1
          · obtain ⟨x, hvs⟩ := List.length_eq_one.mp h1
            rw [hm, if_pos h1, hvs, List.headD_cons]
            refine ⟨?_, hwfall x (by rw [hvs]; exact List.mem_singleton_self x)⟩
            rw [denote_alt, ← hsum, hvs, sumD_singleton]
          · rw [hm, if_neg h1]
            have hvne : simplify_list vs0 ≠ [] := by
              obtain ⟨hne0, _⟩ := (wf_alt_iff vs0).mp hwf
              apply List.ne_nil_of_length_pos
              rw [hlen]
              exact List.length_pos.mpr hne0
            obtain ⟨m1, m2⟩ := altRules_sound _ hvne hwfall
            exact ⟨by rw [m1, hsum, denote_alt], m2⟩
        | CONCATENATION =>
          have hm : simplify_step (Regex.node .CONCATENATION vs0) =
              (if (simplify_list vs0).length = 1
               then (simplify_list vs0).headD dflt
               else flatten (concatRules (simplify_list vs0))) := rfl
          by_cases h1 : (simplify_list vs0).length = 1
          · obtain ⟨x, hvs⟩ := List.length_eq_one.mp h1
            rw [hm, if_pos h1, hvs, List.headD_cons]
            refine ⟨?_, hwfall x (by rw [hvs]; exact List.mem_singleton_self x)⟩
            rw [denote_concat, ← hprod, hvs, prodD_singleton]
          · rw [hm, if_neg h1]
            have hvne : simplify_list vs0 ≠ [] := by
              obtain ⟨hne0, _⟩ := (wf_concat_iff vs0).mp hwf
              apply List.ne_nil_of_length_pos
              rw [hlen]
              exact List.length_pos.mpr hne0
            obtain ⟨m1, m2⟩ := concatRules_sound _ hvne hwfall
            exact ⟨by rw [m1, hprod, denote_concat], m2⟩
        | KLEENE_STAR =>
          have hm : simplify_step (Regex.node .KLEENE_STAR vs0) =
              flatten (starRules (simplify_list vs0)) := rfl
          obtain ⟨c0, hc0, _⟩ := (wf_wrap_iff _ _ (by simp)).mp hwf
          have hl1 : (simplify_list vs0).length = 1 := by
            rw [hlen, hc0]
            rfl
          obtain ⟨c, hvs⟩ := List.length_eq_one.mp hl1
          have hwc : wfB c = true :=
            hwfall c (by rw [hvs]; exact List.mem_singleton_self c)
          obtain ⟨m1, m2⟩ := starRules_sound c hwc
          have hpc : prodD [c] = prodD vs0 := by rw [← hvs, hprod]
          rw [hm, hvs]
          exact ⟨by rw [m1, hpc, denote_star], m2⟩
        | KLEENE_PLUS =>
          have hm : simplify_step (Regex.node .KLEENE_PLUS vs0) =
              flatten (plusRules (simplify_list vs0)) := rfl
          obtain ⟨c0, hc0, _⟩ := (wf_wrap_iff _ _ (by simp)).mp hwf
          have hl1 : (simplify_list vs0).length = 1 := by
            rw [hlen, hc0]
            rfl
          obtain ⟨c, hvs⟩ := List.length_eq_one.mp hl1
          have hwc : wfB c = true :=
            hwfall c (by rw [hvs]; exact List.mem_singleton_self c)
          obtain ⟨m1, m2⟩ := plusRules_sound c hwc
          have hpc : prodD [c] = prodD vs0 := by rw [← hvs, hprod]
          rw [hm, hvs]
          exact ⟨by rw [m1, hpc, denote_plus], m2⟩
        | MAYBE =>
          have hm : simplify_step (Regex.node .MAYBE vs0) =
              flatten (maybeRules (simplify_list vs0)) := rfl
          obtain ⟨c0, hc0, _⟩ := (wf_wrap_iff _ _ (by simp)).mp hwf
          have hl1 : (simplify_list vs0).length = 1 := by
            rw [hlen, hc0]
            rfl
          obtain ⟨c, hvs⟩ := List.length_eq_one.mp hl1
          have hwc : wfB c = true :=
            hwfall c (by rw [hvs]; exact List.mem_singleton_self c)
          obtain ⟨m1, m2⟩ := maybeRules_sound c hwc
          have hpc : prodD [c] = prodD vs0 := by rw [← hvs, hprod]
          rw [hm, hvs]
          exact ⟨by rw [m1, hpc, denote_maybe], m2⟩
    refine ⟨hstep, ?_⟩
    intro l hl hwl
    cases l with
    | nil => exact ⟨rfl, rfl, rfl⟩
    | cons x xs =>
      have hcc : nodeCount x + nodeCountL xs ≤ n + 1 := by
        have h1 : nodeCountL (x :: xs) = nodeCount x + nodeCountL xs := rfl
        omega
      rw [wfL, Bool.and_eq_true] at hwl
      obtain ⟨hwx, hwxs⟩ := hwl
      have hpx := nodeCount_pos x
      obtain ⟨d1, d2⟩ := hstep x (by omega) hwx
      obtain ⟨e1, e2, e3⟩ := ih.2 xs (by omega) hwxs
      have hm : simplify_list (x :: xs) =
          simplify_step x :: simplify_list xs := rfl
      rw [hm]
      refine ⟨?_, ?_, ?_⟩
      · show denote (simplify_step x) :: denoteL (simplify_list xs) =
          denote x :: denoteL xs
        rw [d1, e1]
      · show (wfB (simplify_step x) && wfL (simplify_list xs)) = true
        rw [d2, e2]
        rfl
      · show (simplify_step x :: simplify_list xs).length = (x :: xs).length
        rw [List.length_cons, List.length_cons, e3]

/-- One simplification pass preserves the denoted language and
well-formedness of a well-formed tree. -/
theorem simplify_step_sound (r : Regex) (h : wfB r = true) :
    denote (simplify_step r) = denote r ∧ wfB (simplify_step r) = true :=
  (simplify_sound_aux (nodeCount r)).1 r le_rfl h

/-- C1: for every well-formed regex tree `r` (arities per the data
model: `STRING` leaves carry a single symbol, `STAR`/`PLUS`/`OPT` have
exactly one child, `ALT`/`CONCAT` at least one), the language denoted
by `simplify_regex r` equals the language denoted by `r` — for every
fuel bound on the embedded fixed-point loop, hence for the Python
result whenever the loop terminates.  This covers all words, in
particular the depth ≤ 5 / length ≤ 6 fragment named by the
specification. -/
theorem simplify_regex_preserves_language (fuel : Nat) (r : Regex)
    (h : wfB r = true) : denote (simplify_regex fuel r) = denote r := by
  induction fuel generalizing r with
  | zero => rfl
  | succ n ih =>
    have hm : simplify_regex (n + 1) r =
        (if simplify_step r = r then simplify_step r
         else simplify_regex n (simplify_step r)) := rfl
    obtain ⟨d1, d2⟩ := simplify_step_sound r h
    rw [hm]
    by_cases he : simplify_step r = r
    · rw [if_pos he, he]
    · rw [if_neg he, ih (simplify_step r) d2, d1]

/-- The preservation theorem applied at a concrete well-formed input,
`ALT(ε, a)`, with fuel 5. -/
theorem simplify_regex_preserves_language_witness :
    wfB (.node .ALTERNATION [.STRING "ε", .STRING "a"]) = true ∧
    denote (simplify_regex 5 (.node .ALTERNATION [.STRING "ε", .STRING "a"])) =
      denote (.node .ALTERNATION [.STRING "ε", .STRING "a"]) :=
  ⟨by decide, simplify_regex_preserves_language 5 _ (by decide)⟩
